import Mathlib

/-!
Verification of the WN-LMF streaming reader/writer (`wn/lmf.py`).

The Python module is shallowly embedded below:

* byte strings (`bytes`) become `List Nat` with each entry a byte value;
* the `etree.iterparse` event stream becomes a `List XEvent`; an XML document
  (always well formed, as guaranteed by the external tokenizer) is an `XTree`
  and its event stream is `eventsOf`;
* exceptions become `Except` values (`LMFError`, `KeyError`, `StopIteration`,
  `TypeError` are distinguished); `warnings.warn` diagnostics are accumulated
  in the parser state;
* the enumerated vocabularies imported from `wn.constants`
  (`SENSE_RELATIONS`, `SENSE_SYNSET_RELATIONS`, `SYNSET_RELATIONS`,
  `ADJPOSITIONS`, `PARTS_OF_SPEECH`) are external configuration tables and are
  passed as an explicit `Vocab` record.
-/

/-- Attribute sets as association lists keyed by (qualified) attribute name.
XML attribute names are unique per element; lookup takes the first match,
mirroring Python dict lookup. -/
abbrev Attrs := List (String × String)

/-- `attrs.get(key)` -/
def getA (attrs : Attrs) (key : String) : Option String :=
  match attrs with
  | [] => none
  | (k, v) :: rest => if k = key then some v else getA rest key

/-- Python exceptions that can escape the loader, scanner or dumper:
`LMFError` (the format error), `KeyError` on a missing required attribute,
`StopIteration` on an exhausted event iterator, `TypeError` from
`int(None)`, `UnicodeDecodeError` from `bytes.decode('utf-8')`,
`IndexError` from `infos[-1]` on an empty list, `AttributeError` from
`_build_lemma(None)`. -/
inductive LoadErr where
  | lmf (msg : String)
  | keyError (key : String)
  | stopIteration
  | typeError
  | unicodeDecode
  | indexError
  | attributeError
deriving DecidableEq, Repr

/-- `attrs[key]`: raises `KeyError` when absent. -/
def getReq (attrs : Attrs) (key : String) : Except LoadErr String :=
  match getA attrs key with
  | some v => .ok v
  | none => .error (.keyError key)

/-- One `etree.iterparse` event.  The start and the end event of an element
both reference the same element object, so both carry the element's
attributes and text; the loader reads attributes from start events and
attributes/text from end events. -/
inductive XEvent where
  | startE (tag : String) (attrs : Attrs) (text : Option String)
  | endE (tag : String) (attrs : Attrs) (text : Option String)
deriving DecidableEq, Repr

/-- A well-formed XML element tree (the input documents handed to the
external tokenizer). -/
inductive XTree where
  | node (tag : String) (attrs : Attrs) (text : Option String)
      (children : List XTree)

def XTree.tag : XTree → String
  | .node t _ _ _ => t

def XTree.attrs : XTree → Attrs
  | .node _ a _ _ => a

def XTree.text : XTree → Option String
  | .node _ _ x _ => x

def XTree.children : XTree → List XTree
  | .node _ _ _ cs => cs

mutual

/-- The `iterparse` event stream of one element. -/
def eventsOf : XTree → List XEvent
  | .node t a x cs => .startE t a x :: (eventsOfList cs ++ [.endE t a x])

def eventsOfList : List XTree → List XEvent
  | [] => []
  | c :: cs => eventsOf c ++ eventsOfList cs

end

/-- Parser state: the not-yet-consumed suffix of the event stream plus the
diagnostics (`warnings.warn`) issued so far, oldest first. -/
structure PSt where
  evs : List XEvent
  warns : List String
deriving DecidableEq, Repr

def warnSt (msg : String) (st : PSt) : PSt :=
  { st with warns := st.warns ++ [msg] }

/-- `XMLEventIterator.starts(*tags)`: peek whether the next event is a start
event of one of the given tags (`False` at end of stream). -/
def startsAny (tags : List String) (st : PSt) : Bool :=
  match st.evs with
  | .startE t _ _ :: _ => tags.contains t
  | _ => false

/-- `next(events)`: `StopIteration` on an exhausted stream. -/
def nextEv (st : PSt) : Except LoadErr (XEvent × PSt) :=
  match st.evs with
  | [] => .error .stopIteration
  | e :: rest => .ok (e, { st with evs := rest })

def XEvent.evAttrs : XEvent → Attrs
  | .startE _ a _ => a
  | .endE _ a _ => a

def joinBar (tags : List String) : String :=
  String.intercalate "|" tags

/-- `XMLEventIterator.start(*tags)`: consume the next event, asserting it is
a start event of one of the given tags. -/
def startTag (tags : List String) (st : PSt) :
    Except LoadErr (String × Attrs × PSt) := do
  let (e, st') ← nextEv st
  match e with
  | .startE t a _ =>
    if tags.contains t then .ok (t, a, st')
    else .error (.lmf ("expected <" ++ joinBar tags ++ ">, got <" ++ t ++ ">"))
  | .endE t _ _ =>
    .error (.lmf ("expected <" ++ joinBar tags ++ ">, got </" ++ t ++ ">"))

/-- `XMLEventIterator.end(*tags)`: consume the next event, asserting it is an
end event of one of the given tags; returns the element's attributes and
text. -/
def endTag (tags : List String) (st : PSt) :
    Except LoadErr (Attrs × Option String × PSt) := do
  let (e, st') ← nextEv st
  match e with
  | .startE t _ _ =>
    .error (.lmf ("expected </" ++ joinBar tags ++ ">, got <" ++ t ++ ">"))
  | .endE t a x =>
    if tags.contains t then .ok (a, x, st')
    else .error (.lmf ("expected </" ++ joinBar tags ++ ">, got </" ++ t ++ ">"))

/-- Byte strings (`bytes`) as lists of byte values (each `< 256`). -/
abbrev Bytes := List Nat

/-- The bytes stripped by `bytes.rstrip()` (ASCII whitespace). -/
def isWsByte (b : Nat) : Bool :=
  b == 32 || b == 9 || b == 10 || b == 13 || b == 11 || b == 12

/-- `line.rstrip()` on bytes. -/
def rstripB (bs : Bytes) : Bytes :=
  (bs.reverse.dropWhile isWsByte).reverse

/-- `.replace(b"'", b'"')`: byte 0x27 (single quote) becomes 0x22 (double
quote). -/
def normQuotes (bs : Bytes) : Bytes :=
  bs.map (fun b => if b = 39 then 34 else b)

/-- UTF-8 encoding of one scalar value. -/
def utf8EncodeChar (c : Nat) : Bytes :=
  if c < 0x80 then [c]
  else if c < 0x800 then [0xC0 + c / 64, 0x80 + c % 64]
  else if c < 0x10000 then
    [0xE0 + c / 4096, 0x80 + (c / 64) % 64, 0x80 + c % 64]
  else
    [0xF0 + c / 262144, 0x80 + (c / 4096) % 64, 0x80 + (c / 64) % 64,
     0x80 + c % 64]

/-- UTF-8 encoding of a string (used to build concrete byte inputs). -/
def utf8Encode (s : String) : Bytes :=
  s.data.foldr (fun c acc => utf8EncodeChar c.toNat ++ acc) []

/-- Strict UTF-8 decoding loop (models `bytes.decode('utf-8')`): rejects
stray continuation bytes, overlong encodings, surrogates and values above
U+10FFFF, exactly as Python's strict codec does.  The first argument is
fuel, instantiated with the length of the byte string. -/
def utf8DecodeLoop : Nat → Bytes → Option (List Char)
  | _, [] => some []
  | 0, _ :: _ => none
  | fuel + 1, b :: bs =>
    if b < 0x80 then
      (utf8DecodeLoop fuel bs).map (fun cs => Char.ofNat b :: cs)
    else if b < 0xC2 then none
    else if b < 0xE0 then
      match bs with
      | b1 :: bs' =>
        if 0x80 ≤ b1 ∧ b1 < 0xC0 then
          (utf8DecodeLoop fuel bs').map
            (fun cs => Char.ofNat ((b - 0xC0) * 64 + (b1 - 0x80)) :: cs)
        else none
      | _ => none
    else if b < 0xF0 then
      match bs with
      | b1 :: b2 :: bs' =>
        if (0x80 ≤ b1 ∧ b1 < 0xC0) ∧ (0x80 ≤ b2 ∧ b2 < 0xC0) ∧
            (b = 0xE0 → 0xA0 ≤ b1) ∧ (b = 0xED → b1 < 0xA0) then
          (utf8DecodeLoop fuel bs').map
            (fun cs =>
              Char.ofNat ((b - 0xE0) * 4096 + (b1 - 0x80) * 64 + (b2 - 0x80))
                :: cs)
        else none
      | _ => none
    else if b < 0xF5 then
      match bs with
      | b1 :: b2 :: b3 :: bs' =>
        if (0x80 ≤ b1 ∧ b1 < 0xC0) ∧ (0x80 ≤ b2 ∧ b2 < 0xC0) ∧
            (0x80 ≤ b3 ∧ b3 < 0xC0) ∧
            (b = 0xF0 → 0x90 ≤ b1) ∧ (b = 0xF4 → b1 < 0x90) then
          (utf8DecodeLoop fuel bs').map
            (fun cs =>
              Char.ofNat ((b - 0xF0) * 262144 + (b1 - 0x80) * 4096 +
                (b2 - 0x80) * 64 + (b3 - 0x80)) :: cs)
        else none
      | _ => none
    else none

/-- `bytes.decode('utf-8')`: `none` models `UnicodeDecodeError`. -/
def utf8Decode (bs : Bytes) : Option String :=
  (utf8DecodeLoop bs.length bs).map (fun cs => String.mk cs)

/-- The two supported schema versions ('1.0' and '1.1'); only these two
strings ever flow through the loader and the dumper. -/
inductive Ver where
  | v10
  | v11
deriving DecidableEq, Repr

/-- `_XMLDECL` (an ASCII bytes literal in the source). -/
def XMLDECL : String := "<?xml version=\"1.0\" encoding=\"UTF-8\"?>"

def xmldeclBytes : Bytes := utf8Encode XMLDECL

/-- `_SCHEMAS` -/
def SCHEMA : Ver → String
  | .v10 => "http://globalwordnet.github.io/schemas/WN-LMF-1.0.dtd"
  | .v11 => "http://globalwordnet.github.io/schemas/WN-LMF-1.1.dtd"

/-- `_DOCTYPE.format(schema=...)` -/
def DOCTYPE (v : Ver) : String :=
  "<!DOCTYPE LexicalResource SYSTEM \"" ++ SCHEMA v ++ "\">"

/-- `_DOCTYPES` as a lookup: the schema version associated with a known
document-type string. -/
def doctypeVersion (s : String) : Option Ver :=
  if s = DOCTYPE .v10 then some .v10
  else if s = DOCTYPE .v11 then some .v11
  else none

/-- `_read_header`, on the first two lines returned by `fh.readline()`
(newline still attached, as read).  It raises the `LMFError` format error on
a mismatched line, but `doctype.decode('utf-8')` can also raise
`UnicodeDecodeError` (which is *not* an `LMFError`). -/
def read_header (l1 l2 : Bytes) : Except LoadErr Ver :=
  let xmldecl := normQuotes (rstripB l1)
  let doctype := normQuotes (rstripB l2)
  if xmldecl ≠ xmldeclBytes then
    .error (.lmf "invalid or missing XML declaration")
  else
    match utf8Decode doctype with
    | none => .error .unicodeDecode
    | some s =>
      match doctypeVersion s with
      | some v => .ok v
      | none => .error (.lmf "invalid or missing DOCTYPE declaration")

/-- `is_lmf`.  The `is_xml` check lives in `wn._util` (outside this module)
and inspects the file path, so it is modelled as a boolean input; the first
two lines of the file are the remaining input.  Only `LMFError` is caught;
any other exception raised by `_read_header` propagates. -/
def is_lmf (isxml : Bool) (l1 l2 : Bytes) : Except LoadErr Bool :=
  if !isxml then .ok false
  else
    match read_header l1 l2 with
    | .ok _ => .ok true
    | .error (.lmf _) => .ok false
    | .error e => .error e

/-- A value stored in the `confidence` metadata slot: the parsed real number,
or — when `float()` fails — the raw, unparsed attribute text (the source
keeps the string in that case). -/
inductive MetaVal where
  | num (q : ℚ)
  | str (s : String)
deriving DecidableEq, Repr

/-- `Metadata` (a 17-slot record: the 14 Dublin-Core attributes, then
status, note, confidence). -/
structure Metadata where
  contributor : Option String := none
  coverage : Option String := none
  creator : Option String := none
  date : Option String := none
  description : Option String := none
  format : Option String := none
  identifier : Option String := none
  publisher : Option String := none
  relation : Option String := none
  rights : Option String := none
  source : Option String := none
  subject : Option String := none
  title : Option String := none
  type : Option String := none
  status : Option String := none
  note : Option String := none
  confidence : Option MetaVal := none
deriving DecidableEq, Repr

/-- `_DC_ATTRS` -/
def DC_ATTRS : List String :=
  ["contributor", "coverage", "creator", "date", "description", "format",
   "identifier", "publisher", "relation", "rights", "source", "subject",
   "title", "type"]

/-- `_DC_URIS` -/
def DC_URI : Ver → String
  | .v10 => "http://purl.org/dc/elements/1.1/"
  | .v11 => "http://globalwordnet.github.io/schemas/dc/"

/-- Clark notation for a namespace-qualified name, as produced by `etree`
(`\x7buri\x7dlocal`). -/
def clark (uri attr : String) : String :=
  "\x7b" ++ uri ++ "\x7d" ++ attr

/-- `_DC_QNAME_PAIRS[version]` -/
def DC_QNAME_PAIRS (v : Ver) : List (String × String) :=
  DC_ATTRS.map (fun a => (clark (DC_URI v) a, a))

/-- `Count` -/
structure Count where
  value : Int
  meta : Option Metadata := none
deriving DecidableEq, Repr

/-- `SyntacticBehaviour` -/
structure SyntacticBehaviour where
  frame : String
  senses : List String := []
deriving DecidableEq, Repr

/-- `SenseRelation` -/
structure SenseRelation where
  target : String
  type : String
  meta : Option Metadata := none
deriving DecidableEq, Repr

/-- `SynsetRelation` -/
structure SynsetRelation where
  target : String
  type : String
  meta : Option Metadata := none
deriving DecidableEq, Repr

/-- `Example`.  `text` comes from `elem.text`, which is `None` for an empty
element; `language` comes from `attrs.get('language')`. -/
structure Example where
  text : Option String
  language : Option String := none
  meta : Option Metadata := none
deriving DecidableEq, Repr

/-- `ILIDefinition` -/
structure ILIDefinition where
  text : Option String
  meta : Option Metadata := none
deriving DecidableEq, Repr

/-- `Definition` -/
structure Definition where
  text : Option String
  language : Option String := none
  source_sense : Option String := none
  meta : Option Metadata := none
deriving DecidableEq, Repr

/-- `Synset`.  The loader always passes strings for `ili` and `pos`
(`as_external` passes `''` for both), so those fields are `String`. -/
structure Synset where
  id : String
  ili : String
  pos : String
  definitions : List Definition := []
  ili_definition : Option ILIDefinition := none
  relations : List SynsetRelation := []
  examples : List Example := []
  lexicalized : Bool := true
  meta : Option Metadata := none
  external : Bool := false
deriving DecidableEq, Repr

/-- `Sense` -/
structure Sense where
  id : String
  synset : String
  relations : List SenseRelation := []
  examples : List Example := []
  counts : List Count := []
  lexicalized : Bool := true
  adjposition : String := ""
  meta : Option Metadata := none
  external : Bool := false
deriving DecidableEq, Repr

/-- `Tag` (`text` is `elem.text`, possibly `None`). -/
structure Tag where
  text : Option String
  category : String
deriving DecidableEq, Repr

/-- `Form` (`script` is `attrs.get('script')`). -/
structure Form where
  form : String
  script : Option String := none
  tags : List Tag := []
deriving DecidableEq, Repr

/-- `Lemma` -/
structure Lemma where
  form : String
  pos : String
  script : Option String := none
  tags : List Tag := []
deriving DecidableEq, Repr

/-- `LexicalEntry` (`lemma` is `None` exactly for external stubs; the
Python attribute `lemma` is spelled `lem` here because `lemma` is a Lean
keyword). -/
structure LexicalEntry where
  id : String
  lem : Option Lemma
  forms : List Form := []
  senses : List Sense := []
  meta : Option Metadata := none
  external : Bool := false
deriving DecidableEq, Repr

/-- The dict produced by `_load_dependency` (`Extends`/`Requires`
elements): id, version, optional url. -/
structure Dependency where
  id : String
  version : String
  url : Option String := none
deriving DecidableEq, Repr

/-- `Lexicon`.  The Python attribute `extends` is spelled `ext` here because
`extends` is a Lean keyword. -/
structure Lexicon where
  id : String
  label : String
  language : String
  email : String
  license : String
  version : String
  url : Option String := none
  citation : Option String := none
  lexical_entries : List LexicalEntry := []
  synsets : List Synset := []
  syntactic_behaviours : List SyntacticBehaviour := []
  ext : Option Dependency := none
  requires : List Dependency := []
  meta : Option Metadata := none
deriving DecidableEq, Repr

/-- The enumerated vocabularies imported from `wn.constants` — fixed,
externally defined configuration tables (spec section 6) whose members the
loader validates against; their concrete contents live outside this module. -/
structure Vocab where
  SENSE_RELATIONS : List String
  SENSE_SYNSET_RELATIONS : List String
  SYNSET_RELATIONS : List String
  ADJPOSITIONS : List String
  PARTS_OF_SPEECH : List String

/-- The diagnostic text issued for an enumerated value outside its
vocabulary (condensed from the Python message; no claim depends on the
message wording). -/
def invalidChoiceMsg (u : String) : String :=
  "value " ++ u ++ " is not one of the permitted choices"

/-- `_get_literal`: warn when the value is present and outside its permitted
vocabulary; the returned string is `value or ''` (the raw value is kept, an
empty/absent value becomes `''`). -/
def get_literal (value : Option String) (choices : List String) (st : PSt) :
    String × PSt :=
  let st' :=
    match value with
    | some v =>
      if choices.contains v then st
      else warnSt (invalidChoiceMsg v) st
    | none => st
  (match value with
   | none => ""
   | some v => v, st')

/-- `str.lower()` (models the external lowercasing routine; faithful on the
ASCII range, which is all the loader ever compares against). -/
def pyLower (s : String) : String :=
  ⟨s.data.map Char.toLower⟩

/-- `_get_bool`: lowercase the text, validate it against `('true', 'false')`
via `_get_literal`, and return whether the result equals `'true'`. -/
def get_bool (value : String) (st : PSt) : Bool × PSt :=
  let (lit, st') := get_literal (some (pyLower value)) ["true", "false"] st
  (lit == "true", st')

/-- Models the external real-number parser `float()` on finite decimal
literals (optional surrounding whitespace, optional sign, integer and/or
fractional digits, optional decimal exponent).  `none` models `ValueError`.
No claim below depends on the numeric value this produces, only on whether
parsing succeeds. -/
def pyFloat (s : String) : Option ℚ :=
  let cs := (s.data.dropWhile Char.isWhitespace).reverse.dropWhile
    Char.isWhitespace |>.reverse
  let (neg, cs) :=
    match cs with
    | '-' :: rest => (true, rest)
    | '+' :: rest => (false, rest)
    | _ => (false, cs)
  let (ip, cs) := (cs.takeWhile Char.isDigit, cs.dropWhile Char.isDigit)
  let (fp, cs) :=
    match cs with
    | '.' :: rest => (rest.takeWhile Char.isDigit, rest.dropWhile Char.isDigit)
    | _ => ([], cs)
  if ip.isEmpty ∧ fp.isEmpty then none
  else
    let digitsVal := fun (l : List Char) =>
      l.foldl (fun n c => n * 10 + (c.toNat - 48)) 0
    let mantissa : ℚ :=
      ((digitsVal ip * 10 ^ fp.length + digitsVal fp : Nat) : ℚ) /
        ((10 ^ fp.length : Nat) : ℚ)
    let signed := if neg then -mantissa else mantissa
    match cs with
    | [] => some signed
    | e :: rest =>
      if e = 'e' ∨ e = 'E' then
        let (eneg, rest) :=
          match rest with
          | '-' :: r => (true, r)
          | '+' :: r => (false, r)
          | _ => (false, rest)
        let (ed, rest) :=
          (rest.takeWhile Char.isDigit, rest.dropWhile Char.isDigit)
        if ed.isEmpty ∨ ¬rest.isEmpty then none
        else
          let ev := digitsVal ed
          some (if eneg then signed / ((10 ^ ev : Nat) : ℚ)
                else signed * ((10 ^ ev : Nat) : ℚ))
      else none

/-- Models the external integer parser `int()` on a string: optional
surrounding whitespace, optional sign, at least one digit.  `none` models
`ValueError`. -/
def pyInt (s : String) : Option Int :=
  let cs := (s.data.dropWhile Char.isWhitespace).reverse.dropWhile
    Char.isWhitespace |>.reverse
  let (neg, cs) :=
    match cs with
    | '-' :: rest => (true, rest)
    | '+' :: rest => (false, rest)
    | _ => (false, cs)
  if cs.isEmpty ∨ ¬(cs.all Char.isDigit) then none
  else
    let n : Nat := cs.foldl (fun n c => n * 10 + (c.toNat - 48)) 0
    some (if neg then -(n : Int) else (n : Int))

/-- `_get_metadata`: collect the 14 namespace-qualified Dublin-Core
attributes (namespace depending on the schema version), `status`, `note`,
and `confidenceScore`.  A `confidenceScore` that fails to parse keeps the
raw text in the slot; one that parses but falls outside `[0, 1]` keeps the
out-of-range number; both issue a diagnostic.  A `Metadata` record is
returned only when at least one of the 17 slots is populated.  (The source
iterates `_DC_QNAME_PAIRS[version]`, which pairs the qualified names with
`_DC_ATTRS` in that fixed order; the lookups are spelled out here.) -/
def get_metadata (attrs : Attrs) (v : Ver) (st : PSt) :
    Option Metadata × PSt :=
  let look := fun (a : String) => getA attrs (clark (DC_URI v) a)
  let status := getA attrs "status"
  let note := getA attrs "note"
  let (conf, st') :=
    match getA attrs "confidenceScore" with
    | none => ((none : Option MetaVal), st)
    | some s =>
      match pyFloat s with
      | some q =>
        if 0 ≤ q ∧ q ≤ 1 then (some (MetaVal.num q), st)
        else (some (MetaVal.num q),
          warnSt ("confidenceScore not between 0 and 1: " ++ s) st)
      | none => (some (MetaVal.str s),
          warnSt ("confidenceScore not between 0 and 1: " ++ s) st)
  if (DC_ATTRS.map look).any (·.isSome) ∨ status.isSome ∨ note.isSome ∨
      conf.isSome then
    (some
      { contributor := look "contributor"
        coverage := look "coverage"
        creator := look "creator"
        date := look "date"
        description := look "description"
        format := look "format"
        identifier := look "identifier"
        publisher := look "publisher"
        relation := look "relation"
        rights := look "rights"
        source := look "source"
        subject := look "subject"
        title := look "title"
        type := look "type"
        status := status
        note := note
        confidence := conf }, st')
  else
    (none, st')

/-- Group a character list into maximal whitespace-free runs (whitespace
characters open a new group). -/
def wsFold (cs : List Char) : List (List Char) :=
  cs.foldr
    (fun c acc =>
      if c.isWhitespace then [] :: acc
      else
        match acc with
        | [] => [[c]]
        | w :: ws => (c :: w) :: ws)
    []

/-- Python `str.split()` with no argument: split on runs of whitespace,
dropping empty pieces. -/
def pySplitWs (s : String) : List String :=
  ((wsFold s.data).filter (fun w => ¬ w.isEmpty)).map (fun w => ⟨w⟩)

/-- Every `while events.starts(...)` loader loop below is driven by a fuel
argument; `load` supplies more fuel than there are events, so this
out-of-fuel marker is unreachable on actual runs (each iteration consumes at
least one event). -/
def fuelErr {α : Type} : Except LoadErr α :=
  .error (.lmf "out of fuel")

/-- `_load_tags` -/
def load_tags : Nat → PSt → Except LoadErr (List Tag × PSt)
  | 0, _ => fuelErr
  | fuel + 1, st =>
    if startsAny ["Tag"] st then do
      let (_, st) ← nextEv st
      let (attrs, text, st) ← endTag ["Tag"] st
      let category ← getReq attrs "category"
      let (tags, st) ← load_tags fuel st
      .ok (⟨text, category⟩ :: tags, st)
    else .ok ([], st)

/-- `_load_forms` -/
def load_forms : Nat → PSt → Except LoadErr (List Form × PSt)
  | 0, _ => fuelErr
  | fuel + 1, st =>
    if startsAny ["Form"] st then do
      let (e, st) ← nextEv st
      let attrs := e.evAttrs
      let writtenForm ← getReq attrs "writtenForm"
      let (tags, st) ← load_tags fuel st
      let (_, _, st) ← endTag ["Form"] st
      let (forms, st) ← load_forms fuel st
      .ok (⟨writtenForm, getA attrs "script", tags⟩ :: forms, st)
    else .ok ([], st)

/-- `_load_lemma` -/
def load_lemma (V : Vocab) (fuel : Nat) (st : PSt) :
    Except LoadErr (Lemma × PSt) := do
  let (_, attrs, st) ← startTag ["Lemma"] st
  let writtenForm ← getReq attrs "writtenForm"
  let posRaw ← getReq attrs "partOfSpeech"
  let (pos, st) := get_literal (some posRaw) V.PARTS_OF_SPEECH st
  let (tags, st) ← load_tags fuel st
  let (_, _, st) ← endTag ["Lemma"] st
  .ok (⟨writtenForm, pos, getA attrs "script", tags⟩, st)

/-- `_load_sense_relations`: an unrecognized relation type (in neither
`SENSE_RELATIONS` nor `SENSE_SYNSET_RELATIONS`) raises `LMFError`. -/
def load_sense_relations (V : Vocab) (v : Ver) :
    Nat → PSt → Except LoadErr (List SenseRelation × PSt)
  | 0, _ => fuelErr
  | fuel + 1, st =>
    if startsAny ["SenseRelation"] st then do
      let (_, st) ← nextEv st
      let (attrs, _, st) ← endTag ["SenseRelation"] st
      let reltype ← getReq attrs "relType"
      if V.SENSE_RELATIONS.contains reltype ||
          V.SENSE_SYNSET_RELATIONS.contains reltype then do
        let target ← getReq attrs "target"
        let (meta, st) := get_metadata attrs v st
        let (rels, st) ← load_sense_relations V v fuel st
        .ok (⟨target, reltype, meta⟩ :: rels, st)
      else
        .error (.lmf ("invalid sense relation: " ++ reltype))
    else .ok ([], st)

/-- `_load_examples` -/
def load_examples (v : Ver) : Nat → PSt → Except LoadErr (List Example × PSt)
  | 0, _ => fuelErr
  | fuel + 1, st =>
    if startsAny ["Example"] st then do
      let (_, st) ← nextEv st
      let (attrs, text, st) ← endTag ["Example"] st
      let (meta, st) := get_metadata attrs v st
      let (examples, st) ← load_examples v fuel st
      .ok (⟨text, getA attrs "language", meta⟩ :: examples, st)
    else .ok ([], st)

/-- `_load_counts`: a `Count` whose text is not a valid integer gets the
sentinel value `-1` and a diagnostic (`ValueError` is caught); a `Count`
with no text raises `TypeError` (`int(None)`), which is not caught. -/
def load_counts (v : Ver) : Nat → PSt → Except LoadErr (List Count × PSt)
  | 0, _ => fuelErr
  | fuel + 1, st =>
    if startsAny ["Count"] st then do
      let (_, st) ← nextEv st
      let (attrs, text, st) ← endTag ["Count"] st
      match text with
      | none => .error .typeError
      | some s =>
        let (value, st) :=
          match pyInt s with
          | some n => (n, st)
          | none => ((-1 : Int),
              warnSt ("count must be an integer: " ++ s) st)
        let (meta, st) := get_metadata attrs v st
        let (counts, st) ← load_counts v fuel st
        .ok (⟨value, meta⟩ :: counts, st)
    else .ok ([], st)

/-- `_load_syntactic_behaviours` -/
def load_syntactic_behaviours (_v : Ver) :
    Nat → PSt → Except LoadErr (List SyntacticBehaviour × PSt)
  | 0, _ => fuelErr
  | fuel + 1, st =>
    if startsAny ["SyntacticBehaviour"] st then do
      let (_, st) ← nextEv st
      let (attrs, _, st) ← endTag ["SyntacticBehaviour"] st
      let frame ← getReq attrs "subcategorizationFrame"
      let senses := pySplitWs ((getA attrs "senses").getD "")
      let (sbs, st) ← load_syntactic_behaviours _v fuel st
      .ok (⟨frame, senses⟩ :: sbs, st)
    else .ok ([], st)

/-- `_load_senses` (`ExternalSense` is only recognized when the enclosing
entry is itself external). -/
def load_senses (V : Vocab) (v : Ver) (external : Bool) :
    Nat → PSt → Except LoadErr (List Sense × PSt)
  | 0, _ => fuelErr
  | fuel + 1, st =>
    if startsAny ["Sense"] st then do
      let (_, attrs, st) ← startTag ["Sense"] st
      let sid ← getReq attrs "id"
      let ssyn ← getReq attrs "synset"
      let (relations, st) ← load_sense_relations V v fuel st
      let (examples, st) ← load_examples v fuel st
      let (counts, st) ← load_counts v fuel st
      let (lexicalized, st) := get_bool ((getA attrs "lexicalized").getD "true") st
      let (adjposition, st) := get_literal (getA attrs "adjposition") V.ADJPOSITIONS st
      let (meta, st) := get_metadata attrs v st
      let (_, _, st) ← endTag ["Sense"] st
      let (senses, st) ← load_senses V v external fuel st
      .ok ({ id := sid, synset := ssyn, relations := relations,
             examples := examples, counts := counts,
             lexicalized := lexicalized, adjposition := adjposition,
             meta := meta, external := false } :: senses, st)
    else if external && startsAny ["ExternalSense"] st then do
      let (_, attrs, st) ← startTag ["ExternalSense"] st
      let sid ← getReq attrs "id"
      let (relations, st) ← load_sense_relations V v fuel st
      let (examples, st) ← load_examples v fuel st
      let (counts, st) ← load_counts v fuel st
      let (_, _, st) ← endTag ["ExternalSense"] st
      let (senses, st) ← load_senses V v external fuel st
      .ok ({ id := sid, synset := "", relations := relations,
             examples := examples, counts := counts,
             external := true } :: senses, st)
    else .ok ([], st)

/-- `_load_definitions` -/
def load_definitions (v : Ver) :
    Nat → PSt → Except LoadErr (List Definition × PSt)
  | 0, _ => fuelErr
  | fuel + 1, st =>
    if startsAny ["Definition"] st then do
      let (_, st) ← nextEv st
      let (attrs, text, st) ← endTag ["Definition"] st
      let (meta, st) := get_metadata attrs v st
      let (defs, st) ← load_definitions v fuel st
      .ok (⟨text, getA attrs "language", getA attrs "sourceSense", meta⟩
        :: defs, st)
    else .ok ([], st)

/-- `_load_ilidefinition` (zero or one element). -/
def load_ilidefinition (v : Ver) (st : PSt) :
    Except LoadErr (Option ILIDefinition × PSt) :=
  if startsAny ["ILIDefinition"] st then do
    let (_, st) ← nextEv st
    let (attrs, text, st) ← endTag ["ILIDefinition"] st
    let (meta, st) := get_metadata attrs v st
    .ok (some ⟨text, meta⟩, st)
  else .ok (none, st)

/-- `_load_synset_relations`: an unrecognized relation type (not in
`SYNSET_RELATIONS`) raises `LMFError`. -/
def load_synset_relations (V : Vocab) (v : Ver) :
    Nat → PSt → Except LoadErr (List SynsetRelation × PSt)
  | 0, _ => fuelErr
  | fuel + 1, st =>
    if startsAny ["SynsetRelation"] st then do
      let (_, st) ← nextEv st
      let (attrs, _, st) ← endTag ["SynsetRelation"] st
      let reltype ← getReq attrs "relType"
      if V.SYNSET_RELATIONS.contains reltype then do
        let target ← getReq attrs "target"
        let (meta, st) := get_metadata attrs v st
        let (rels, st) ← load_synset_relations V v fuel st
        .ok (⟨target, reltype, meta⟩ :: rels, st)
      else
        .error (.lmf ("invalid synset relation: " ++ reltype))
    else .ok ([], st)

/-- `_load_synsets` (`ExternalSynset` is only recognized inside an
extension lexicon).  `lex_root.clear()` is a memory optimization with no
effect on the result and is not modelled. -/
def load_synsets (V : Vocab) (v : Ver) (extension : Bool) :
    Nat → PSt → Except LoadErr (List Synset × PSt)
  | 0, _ => fuelErr
  | fuel + 1, st =>
    if startsAny ["Synset"] st then do
      let (_, attrs, st) ← startTag ["Synset"] st
      let sid ← getReq attrs "id"
      let ili ← getReq attrs "ili"
      let (pos, st) := get_literal (getA attrs "partOfSpeech") V.PARTS_OF_SPEECH st
      let (definitions, st) ← load_definitions v fuel st
      let (ili_definition, st) ← load_ilidefinition v st
      let (relations, st) ← load_synset_relations V v fuel st
      let (examples, st) ← load_examples v fuel st
      let (lexicalized, st) := get_bool ((getA attrs "lexicalized").getD "true") st
      let (meta, st) := get_metadata attrs v st
      let (_, _, st) ← endTag ["Synset"] st
      let (synsets, st) ← load_synsets V v extension fuel st
      .ok ({ id := sid, ili := ili, pos := pos, definitions := definitions,
             ili_definition := ili_definition, relations := relations,
             examples := examples, lexicalized := lexicalized,
             meta := meta, external := false } :: synsets, st)
    else if extension && startsAny ["ExternalSynset"] st then do
      let (_, attrs, st) ← startTag ["ExternalSynset"] st
      let sid ← getReq attrs "id"
      let (definitions, st) ← load_definitions v fuel st
      let (relations, st) ← load_synset_relations V v fuel st
      let (examples, st) ← load_examples v fuel st
      let (_, _, st) ← endTag ["ExternalSynset"] st
      let (synsets, st) ← load_synsets V v extension fuel st
      .ok ({ id := sid, ili := "", pos := "", definitions := definitions,
             relations := relations, examples := examples,
             external := true } :: synsets, st)
    else .ok ([], st)

/-- `_load_lexical_entries` (`ExternalLexicalEntry` is only recognized
inside an extension lexicon; the collected `SyntacticBehaviour` records are
returned flat, at lexicon granularity).  `lex_root.clear()` is a memory
optimization with no effect on the result and is not modelled. -/
def load_lexical_entries (V : Vocab) (v : Ver) (extension : Bool) :
    Nat → PSt →
      Except LoadErr ((List LexicalEntry × List SyntacticBehaviour) × PSt)
  | 0, _ => fuelErr
  | fuel + 1, st =>
    if startsAny ["LexicalEntry"] st then do
      let (_, attrs, st) ← startTag ["LexicalEntry"] st
      let eid ← getReq attrs "id"
      let (lem, st) ← load_lemma V fuel st
      let (forms, st) ← load_forms fuel st
      let (senses, st) ← load_senses V v false fuel st
      let (meta, st) := get_metadata attrs v st
      let (sbs1, st) ← load_syntactic_behaviours v fuel st
      let (_, _, st) ← endTag ["LexicalEntry"] st
      let ((entries, sbs), st) ← load_lexical_entries V v extension fuel st
      .ok (({ id := eid, lem := some lem, forms := forms, senses := senses,
              meta := meta, external := false } :: entries,
            sbs1 ++ sbs), st)
    else if extension && startsAny ["ExternalLexicalEntry"] st then do
      let (_, attrs, st) ← startTag ["ExternalLexicalEntry"] st
      let eid ← getReq attrs "id"
      let (forms, st) ← load_forms fuel st
      let (senses, st) ← load_senses V v true fuel st
      let (sbs1, st) ← load_syntactic_behaviours v fuel st
      let (_, _, st) ← endTag ["ExternalLexicalEntry"] st
      let ((entries, sbs), st) ← load_lexical_entries V v extension fuel st
      .ok (({ id := eid, lem := none, forms := forms, senses := senses,
              external := true } :: entries,
            sbs1 ++ sbs), st)
    else .ok (([], []), st)

/-- `_load_dependency` -/
def load_dependency (tag : String) (st : PSt) :
    Except LoadErr (Dependency × PSt) := do
  let (_, _, st) ← startTag [tag] st
  let (attrs, _, st) ← endTag [tag] st
  let did ← getReq attrs "id"
  let dver ← getReq attrs "version"
  .ok (⟨did, dver, getA attrs "url"⟩, st)

/-- The `while events.starts('Requires')` loop of `_load_lexicon`. -/
def load_requires : Nat → PSt → Except LoadErr (List Dependency × PSt)
  | 0, _ => fuelErr
  | fuel + 1, st =>
    if startsAny ["Requires"] st then do
      let (dep, st) ← load_dependency "Requires" st
      let (deps, st) ← load_requires fuel st
      .ok (dep :: deps, st)
    else .ok ([], st)

/-- `_load_lexicon`: under schema 1.0 only `Lexicon` roots are accepted;
under 1.1 a `LexiconExtension` root additionally requires an immediate
`Extends` child, and `Requires` children follow. -/
def load_lexicon (V : Vocab) (v : Ver) (fuel : Nat) (st : PSt) :
    Except LoadErr (Lexicon × PSt) := do
  let (lexTag, attrs, st) ←
    match v with
    | .v10 => startTag ["Lexicon"] st
    | .v11 => startTag ["Lexicon", "LexiconExtension"] st
  let extension := lexTag == "LexiconExtension"
  let (extDep, requires, st) ←
    match v with
    | .v10 => pure ((none : Option Dependency), ([] : List Dependency), st)
    | .v11 => do
      let (extDep, st) ←
        if extension then do
          let (d, st) ← load_dependency "Extends" st
          pure (some d, st)
        else
          pure ((none : Option Dependency), st)
      let (reqs, st) ← load_requires fuel st
      pure (extDep, reqs, st)
  let ((entries, frames), st) ← load_lexical_entries V v extension fuel st
  let (synsets, st) ← load_synsets V v extension fuel st
  let lid ← getReq attrs "id"
  let llabel ← getReq attrs "label"
  let llang ← getReq attrs "language"
  let lemail ← getReq attrs "email"
  let llicense ← getReq attrs "license"
  let lversion ← getReq attrs "version"
  let (meta, st) := get_metadata attrs v st
  let (_, _, st) ← endTag [lexTag] st
  .ok ({ id := lid, label := llabel, language := llang, email := lemail,
         license := llicense, version := lversion,
         url := getA attrs "url", citation := getA attrs "citation",
         lexical_entries := entries, synsets := synsets,
         syntactic_behaviours := frames, ext := extDep,
         requires := requires, meta := meta }, st)

/-- The `while events.starts('Lexicon', 'LexiconExtension')` loop of `load`
(`root.clear()` is a memory optimization with no effect on the result). -/
def load_lexicons (V : Vocab) (v : Ver) :
    Nat → PSt → Except LoadErr (List Lexicon × PSt)
  | 0, _ => fuelErr
  | fuel + 1, st =>
    if startsAny ["Lexicon", "LexiconExtension"] st then do
      let (lex, st) ← load_lexicon V v fuel st
      let (lexs, st) ← load_lexicons V v fuel st
      .ok (lex :: lexs, st)
    else .ok ([], st)

/-- The body of `load` after the header has resolved the schema version:
consume the `LexicalResource` root start, the lexicons, the root end, then
drain any remaining events (`list(events)`) without inspecting them.
Returns the lexicons and the diagnostics issued. -/
def load_resource (V : Vocab) (v : Ver) (evs : List XEvent) :
    Except LoadErr (List Lexicon × List String) := do
  let st : PSt := ⟨evs, []⟩
  let (rootTag, _, st) ← startTag ["LexicalResource"] st
  let (lexicons, st) ← load_lexicons V v (evs.length + 1) st
  let (_, _, st) ← endTag [rootTag] st
  .ok (lexicons, st.warns)

/-- `load`: resolve the schema version from the first two lines of the
file, then parse the event stream the external tokenizer produces for the
same file. -/
def load (V : Vocab) (l1 l2 : Bytes) (evs : List XEvent) :
    Except LoadErr (List Lexicon × List String) := do
  let v ← read_header l1 l2
  load_resource V v evs

/-- One record produced by `scan_lexicons`.  The source stores `counts` and
`extends` as extra keys inside the attribute dict itself; they are separate
fields here (`ext` again stands for the Python key `extends`).  `counts` is
the tag-count dict; its insertion order is irrelevant to every statement
below. -/
structure ScanInfo where
  attrs : Attrs
  counts : List (String × Nat)
  ext : Option (String × String)
deriving DecidableEq, Repr

/-- `counts[name] = counts.get(name, 0) + 1` -/
def bumpCount (counts : List (String × Nat)) (tag : String) :
    List (String × Nat) :=
  match counts with
  | [] => [(tag, 1)]
  | (k, n) :: rest =>
    if k = tag then (k, n + 1) :: rest else (k, n) :: bumpCount rest tag

/-- `counts.get(name, 0)` -/
def lookupCount (counts : List (String × Nat)) (tag : String) : Nat :=
  match counts with
  | [] => 0
  | (k, n) :: rest => if k = tag then n else lookupCount rest tag

/-- Mutate the last element of the list (`infos[-1]`). -/
def modifyLast (f : ScanInfo → ScanInfo) : List ScanInfo → List ScanInfo
  | [] => []
  | [i] => [f i]
  | i :: rest => i :: modifyLast f rest

/-- The expat `StartElementHandler` installed by `scan_lexicons`: a
`Lexicon`/`LexiconExtension` start opens a new record, an `Extends` start
stores its id/version pair on the current record (`IndexError` when there is
none, `KeyError` when the attributes are missing), and any other start while
a record is open increments that tag's count on the current record. -/
def scanStart (infos : List ScanInfo) (tag : String) (attrs : Attrs) :
    Except LoadErr (List ScanInfo) :=
  if tag = "Lexicon" ∨ tag = "LexiconExtension" then
    .ok (infos ++ [⟨attrs, [], none⟩])
  else if tag = "Extends" then
    match infos with
    | [] => .error .indexError
    | _ :: _ => do
      let did ← getReq attrs "id"
      let dver ← getReq attrs "version"
      .ok (modifyLast (fun i => { i with ext := some (did, dver) }) infos)
  else if infos.isEmpty then
    .ok infos
  else
    .ok (modifyLast (fun i => { i with counts := bumpCount i.counts tag })
      infos)

/-- The expat pass of `scan_lexicons`: the handler fires on each start
event, end events are ignored. -/
def scanEvents (infos : List ScanInfo) :
    List XEvent → Except LoadErr (List ScanInfo)
  | [] => .ok infos
  | .startE t a _ :: rest => do
    let infos' ← scanStart infos t a
    scanEvents infos' rest
  | .endE _ _ _ :: rest => scanEvents infos rest

/-- `scan_lexicons` on a (well-formed) document tree.  Malformed markup
(`ExpatError` → `LMFError`) can only come from the external tokenizer and is
outside this model. -/
def scan_lexicons (doc : XTree) : Except LoadErr (List ScanInfo) :=
  scanEvents [] (eventsOf doc)

/-- `str(val)` for a metadata slot value.  The rendering of a float is
performed by Python's formatter; the fraction rendering used here is a
placeholder for that external routine (no claim depends on it). -/
def metaValStr : MetaVal → String
  | .str s => s
  | .num q => toString q.num ++ "/" ++ toString q.den

/-- `_meta_dict`: the attribute dict serialized for a metadata record.
Every populated slot — `status`, `note` and `confidence` included — is
emitted under a `dc:`-prefixed attribute name, in `Metadata` field order. -/
def meta_dict : Option Metadata → Attrs
  | none => []
  | some m =>
    ([("contributor", m.contributor), ("coverage", m.coverage),
      ("creator", m.creator), ("date", m.date),
      ("description", m.description), ("format", m.format),
      ("identifier", m.identifier), ("publisher", m.publisher),
      ("relation", m.relation), ("rights", m.rights),
      ("source", m.source), ("subject", m.subject),
      ("title", m.title), ("type", m.type),
      ("status", m.status), ("note", m.note)].filterMap
        (fun p => p.2.map (fun s => ("dc:" ++ p.1, s)))) ++
    (match m.confidence with
     | none => []
     | some mv => [("dc:confidence", metaValStr mv)])

/-- Python truthiness of an optional string (both `None` and `''` are
falsy). -/
def truthy (o : Option String) : Bool :=
  !(o.getD "" == "")

/-- `_build_tag` -/
def build_tag (t : Tag) : XTree :=
  .node "Tag" [("category", t.category)] t.text []

/-- `_build_lemma` (on a present lemma; `_build_lemma(None)` raises
`AttributeError`, handled at the call site). -/
def build_lemma (l : Lemma) : XTree :=
  .node "Lemma"
    ([("writtenForm", l.form)] ++
      (if truthy l.script then [("script", l.script.getD "")] else []) ++
      [("partOfSpeech", l.pos)])
    none (l.tags.map build_tag)

/-- `_build_form` -/
def build_form (f : Form) : XTree :=
  .node "Form"
    ([("writtenForm", f.form)] ++
      (if truthy f.script then [("script", f.script.getD "")] else []))
    none (f.tags.map build_tag)

/-- `_build_sense_relation` -/
def build_sense_relation (r : SenseRelation) : XTree :=
  .node "SenseRelation"
    ([("target", r.target), ("relType", r.type)] ++ meta_dict r.meta)
    none []

/-- `_build_example`: note the example's metadata is *not* serialized. -/
def build_example (e : Example) : XTree :=
  .node "Example"
    (if truthy e.language then [("language", e.language.getD "")] else [])
    e.text []

/-- `_build_count` -/
def build_count (c : Count) : XTree :=
  .node "Count" (meta_dict c.meta) (some (toString c.value)) []

/-- `_build_sense` -/
def build_sense (s : Sense) : XTree :=
  .node "Sense"
    ([("id", s.id), ("synset", s.synset)] ++ meta_dict s.meta ++
      (if s.lexicalized then [] else [("lexicalized", "false")]) ++
      (if s.adjposition == "" then [] else [("adjposition", s.adjposition)]))
    none
    (s.relations.map build_sense_relation ++ s.examples.map build_example ++
      s.counts.map build_count)

/-- `_build_definition` -/
def build_definition (d : Definition) : XTree :=
  .node "Definition"
    ((if truthy d.language then [("language", d.language.getD "")] else []) ++
      (if truthy d.source_sense then [("sourceSense", d.source_sense.getD "")]
       else []) ++ meta_dict d.meta)
    d.text []

/-- `_build_ili_definition` -/
def build_ili_definition (d : ILIDefinition) : XTree :=
  .node "ILIDefinition" (meta_dict d.meta) d.text []

/-- `_build_synset_relation` -/
def build_synset_relation (r : SynsetRelation) : XTree :=
  .node "SynsetRelation"
    ([("target", r.target), ("relType", r.type)] ++ meta_dict r.meta)
    none []

/-- `_dump_synset` (the element it pretty-prints). -/
def dump_synset (s : Synset) (_v : Ver) : XTree :=
  .node "Synset"
    ([("id", s.id)] ++
      (if s.ili == "" then [] else [("ili", s.ili)]) ++
      (if s.pos == "" then [] else [("partOfSpeech", s.pos)]) ++
      meta_dict s.meta ++
      (if s.lexicalized then [] else [("lexicalized", "false")]))
    none
    (s.definitions.map build_definition ++
      (match s.ili_definition with
       | none => []
       | some d => [build_ili_definition d]) ++
      s.relations.map build_synset_relation ++ s.examples.map build_example)

/-- `_build_syntactic_behaviour_1_0` -/
def build_syntactic_behaviour_1_0 (frame : String) (senses : List String) :
    XTree :=
  .node "SyntacticBehaviour"
    [("subcategorizationFrame", frame),
     ("senses", String.intercalate " " senses)]
    none []

/-- Python `set(...)` iteration: the source iterates a hash set whose order
is unspecified; modelled as the distinct elements in first-occurrence
order.  Every statement proved below is insensitive to this order. -/
def pySetList (l : List String) : List String :=
  l.foldl (fun acc s => if acc.contains s then acc else acc ++ [s]) []

/-- Lexicographic-by-code-point comparison of character lists (the string
order Python's `sorted` uses). -/
def charsLe : List Char → List Char → Bool
  | [], _ => true
  | _ :: _, [] => false
  | a :: as, b :: bs =>
    if a.toNat < b.toNat then true
    else if b.toNat < a.toNat then false
    else charsLe as bs

/-- String comparison for `sorted(...)`. -/
def strLe (s t : String) : Bool :=
  charsLe s.data t.data

/-- Insertion step of `sorted` on strings. -/
def insertStr (s : String) : List String → List String
  | [] => [s]
  | t :: rest => if strLe s t then s :: t :: rest else t :: insertStr s rest

/-- `sorted(...)` on a list of strings (lexicographic by code point, as in
Python). -/
def sortStrs (l : List String) : List String :=
  l.foldr insertStr []

/-- The `sbmap` built in `_dump_lexicon` at schema 1.0: each frame record is
listed under every sense id occurring in its `senses` list, once per
occurrence, in recording order. -/
def sbmapOf (sbs : List SyntacticBehaviour) (sid : String) :
    List SyntacticBehaviour :=
  sbs.foldr (fun sb acc => List.replicate (sb.senses.count sid) sb ++ acc) []

/-- The trailing `SyntacticBehaviour` elements `_dump_lexical_entry` emits
at schema 1.0: for each of the entry's distinct sense ids, for each
recorded frame listing that id (with multiplicity), one element carrying
the sorted intersection of the entry's sense-id set with that frame's sense
list. -/
def sbChildren (sbs : List SyntacticBehaviour) (entry : LexicalEntry) :
    List XTree :=
  let senses := pySetList (entry.senses.map (fun s => s.id))
  senses.foldr (fun sid acc =>
    (sbmapOf sbs sid).map (fun sb =>
      build_syntactic_behaviour_1_0 sb.frame
        (sortStrs (senses.filter (fun s => sb.senses.contains s)))) ++ acc) []

/-- `_dump_lexical_entry` (the element it pretty-prints).  A missing lemma
(external entry) raises `AttributeError` inside `_build_lemma`. -/
def dump_lexical_entry (entry : LexicalEntry)
    (sbs : List SyntacticBehaviour) (v : Ver) : Except LoadErr XTree := do
  let lemElem ←
    match entry.lem with
    | none => .error LoadErr.attributeError
    | some l => pure (build_lemma l)
  .ok (.node "LexicalEntry" (("id", entry.id) :: meta_dict entry.meta) none
    (lemElem :: (entry.forms.map build_form ++ entry.senses.map build_sense ++
      (match v with
       | .v10 => sbChildren sbs entry
       | .v11 => []))))

/-- `_dump_lexicon` (the element the textual output parses back to): the
fixed-order attributes, then every lexical entry, then every synset.
Schema-1.1 placement of `SyntacticBehaviour` is left unimplemented by the
source (`TODO`), so at 1.1 no syntactic behaviour is written at all. -/
def dump_lexicon (lex : Lexicon) (v : Ver) : Except LoadErr XTree := do
  let attrib :=
    [("id", lex.id), ("label", lex.label), ("language", lex.language),
     ("email", lex.email), ("license", lex.license),
     ("version", lex.version)] ++
    (if truthy lex.url then [("url", lex.url.getD "")] else []) ++
    (if truthy lex.citation then [("citation", lex.citation.getD "")]
     else []) ++
    meta_dict lex.meta
  let entryElems ← lex.lexical_entries.mapM
    (fun e => dump_lexical_entry e lex.syntactic_behaviours v)
  .ok (.node "Lexicon" attrib none
    (entryElems ++ lex.synsets.map (fun s => dump_synset s v)))

/-- `dump`, structurally: the written document is the two preamble lines
for the target version followed by the text of this root element.  The
purely textual concerns (attribute quoting, two-space indentation,
self-closing of childless elements) are inverted by `reparse` below. -/
def dump_tree (lexicons : List Lexicon) (v : Ver) : Except LoadErr XTree := do
  let lexElems ← lexicons.mapM (fun lex => dump_lexicon lex v)
  .ok (.node "LexicalResource" [("xmlns:dc", DC_URI v)] none lexElems)

/-- Attribute translation performed by `etree` when the printed document is
parsed again: the `xmlns:dc` declaration is consumed, and `dc:`-prefixed
names expand to Clark notation under the declared URI. -/
def reparseAttr (uri : String) (kv : String × String) :
    Option (String × String) :=
  if kv.1 = "xmlns:dc" then none
  else if kv.1.data.take 3 = ['d', 'c', ':'] then
    some (clark uri ⟨kv.1.data.drop 3⟩, kv.2)
  else some kv

mutual

/-- The tree `etree` yields when the printed document is parsed again:
attributes translate per `reparseAttr`; a childless element survives with
its text exactly when that text is truthy (it is printed self-closed
otherwise), and an element with children carries only the indentation
whitespace inserted by `_indent`, which the loader never reads (rendered
`none`). -/
def reparse (uri : String) : XTree → XTree
  | .node t a x cs =>
    .node t (a.filterMap (reparseAttr uri))
      (if cs.isEmpty then (if truthy x then x else none) else none)
      (reparseList uri cs)

def reparseList (uri : String) : List XTree → List XTree
  | [] => []
  | c :: cs => reparse uri c :: reparseList uri cs

end

/-! ## Claim theorems -/

set_option maxRecDepth 10000

/-- Whether an `Except` value is a success. -/
def isOkE {ε α : Type} : Except ε α → Bool
  | .ok _ => true
  | .error _ => false

/-- C4: reading the header fails whenever the first line (rstripped and
quote-normalized) is not the exact required XML declaration, or the second
line, once decoded, matches neither of the two known document-type strings;
it succeeds exactly when the first line matches and the decoded second line
is a known document-type, returning that document-type's schema version; in
particular an input whose first line is `<?xml version="1.1"?>` always
fails. -/
theorem c4_read_header (l1 l2 : Bytes) (v : Ver) :
    (read_header l1 l2 = .ok v ↔
      normQuotes (rstripB l1) = xmldeclBytes ∧
        ∃ s, utf8Decode (normQuotes (rstripB l2)) = some s ∧
          doctypeVersion s = some v) ∧
    (isOkE (read_header l1 l2) = true ↔
      normQuotes (rstripB l1) = xmldeclBytes ∧
        ∃ s, utf8Decode (normQuotes (rstripB l2)) = some s ∧
          (doctypeVersion s).isSome) ∧
    isOkE (read_header (utf8Encode "<?xml version=\"1.1\"?>") l2) = false := by
  have key : ∀ m1 m2 : Bytes,
      read_header m1 m2 =
        if normQuotes (rstripB m1) = xmldeclBytes then
          (match utf8Decode (normQuotes (rstripB m2)) with
           | none => .error .unicodeDecode
           | some s =>
             match doctypeVersion s with
             | some v => .ok v
             | none =>
               .error (.lmf "invalid or missing DOCTYPE declaration"))
        else .error (.lmf "invalid or missing XML declaration") := by
    intro m1 m2
    simp only [read_header, ne_eq, ite_not]
  refine ⟨?_, ?_, ?_⟩
  · rw [key]
    by_cases h1 : normQuotes (rstripB l1) = xmldeclBytes
    · cases hd : utf8Decode (normQuotes (rstripB l2)) with
      | none => simp [h1, hd]
      | some s =>
        cases hv : doctypeVersion s with
        | none => simp [h1, hd, hv]
        | some v' => simp [h1, hd, hv, eq_comm]
    · simp [h1]
  · rw [key]
    by_cases h1 : normQuotes (rstripB l1) = xmldeclBytes
    · cases hd : utf8Decode (normQuotes (rstripB l2)) with
      | none => simp [h1, hd, isOkE]
      | some s =>
        cases hv : doctypeVersion s with
        | none => simp [h1, hd, hv, isOkE]
        | some v' => simp [h1, hd, hv, isOkE]
    · simp [h1, isOkE]
  · rw [key]
    have hne : normQuotes (rstripB (utf8Encode "<?xml version=\"1.1\"?>")) ≠
        xmldeclBytes := by decide
    simp [hne, isOkE]

/-- C10 counterexample: with an XML file whose first line is the valid
declaration but whose second line is the single byte 0xFF (not valid
UTF-8), `is_lmf` does not return a boolean at all — the
`UnicodeDecodeError` raised inside `_read_header` is not an `LMFError` and
propagates out, refuting both "returns True otherwise" and "header failures
never propagate as exceptions out of is_lmf". -/
theorem c10_counterexample :
    is_lmf true (utf8Encode XMLDECL) [255] = .error .unicodeDecode := by
  rfl

/-- C10 (amended): `is_lmf` returns `False` when the target is not an XML
file or when reading the two-line header raises the `LMFError` format
error, and returns `True` when the header reads successfully; however, a
header whose second line is not valid UTF-8 raises a decode error that
propagates out of `is_lmf` (only `LMFError` is caught). -/
theorem c10_is_lmf_spec (isxml : Bool) (l1 l2 : Bytes) :
    (is_lmf isxml l1 l2 = .ok false ↔
      isxml = false ∨ ∃ m, read_header l1 l2 = .error (.lmf m)) ∧
    (is_lmf isxml l1 l2 = .ok true ↔
      isxml = true ∧ isOkE (read_header l1 l2) = true) ∧
    (∀ e, is_lmf isxml l1 l2 = .error e ↔
      isxml = true ∧ read_header l1 l2 = .error e ∧ ∀ m, e ≠ .lmf m) := by
  cases isxml with
  | false => simp [is_lmf]
  | true =>
    cases h : read_header l1 l2 with
    | ok v => simp [is_lmf, h, isOkE]
    | error e =>
      cases e with
      | lmf m => simp [is_lmf, h, isOkE]
      | keyError k => simp [is_lmf, h, isOkE]
      | stopIteration => simp [is_lmf, h, isOkE]
      | typeError => simp [is_lmf, h, isOkE]
      | unicodeDecode => simp [is_lmf, h, isOkE]
      | indexError => simp [is_lmf, h, isOkE]
      | attributeError => simp [is_lmf, h, isOkE]

/-- C6: for any attribute set and schema version, `_get_metadata` attaches
a `Metadata` record exactly when at least one of the 17 slots is populated:
one of the 14 namespace-qualified Dublin-Core attributes (namespace chosen
by the version), `status`, `note`, or `confidenceScore` (whose value —
parsed or raw — is always kept when the attribute is present). -/
theorem c6_metadata_presence (attrs : Attrs) (v : Ver) (st : PSt) :
    (get_metadata attrs v st).1.isSome =
      ((DC_QNAME_PAIRS v).any (fun q => (getA attrs q.1).isSome) ||
        (getA attrs "status").isSome || (getA attrs "note").isSome ||
        (getA attrs "confidenceScore").isSome) := by
  have hq : (DC_QNAME_PAIRS v).any (fun q => (getA attrs q.1).isSome) =
      (DC_ATTRS.map (fun a => getA attrs (clark (DC_URI v) a))).any
        (fun o => o.isSome) := rfl
  rw [hq]
  simp only [get_metadata]
  cases hc : getA attrs "confidenceScore" with
  | none =>
    split
    · rename_i hcond
      rcases hcond with h | h | h | h <;> simp_all
    · rename_i hcond
      simp only [not_or, Bool.not_eq_true] at hcond
      obtain ⟨h1, h2, h3, _⟩ := hcond
      simp [h1, h2, h3, hc]
  | some s =>
    cases hf : pyFloat s with
    | none =>
      split
      · simp [hc]
      · rename_i hcond
        exact absurd (Or.inr (Or.inr (Or.inr (by simp [hf])))) hcond
    | some q =>
      by_cases hr : 0 ≤ q ∧ q ≤ 1
      · split
        · simp [hc]
        · rename_i hcond
          exact absurd (Or.inr (Or.inr (Or.inr (by simp [hf, hr])))) hcond
      · split
        · simp [hc]
        · rename_i hcond
          exact absurd (Or.inr (Or.inr (Or.inr (by simp [hf, hr])))) hcond

/-- A concrete example instantiation of the external vocabulary tables,
used by the witness and end-to-end instances below. -/
def Vx : Vocab :=
  { SENSE_RELATIONS := ["also"], SENSE_SYNSET_RELATIONS := ["other"],
    SYNSET_RELATIONS := ["hypernym"], ADJPOSITIONS := ["a"],
    PARTS_OF_SPEECH := ["n", "v"] }

/-- `_get_bool` on a value whose lowercasing is outside `{true, false}`:
the result is the boolean `false` (the raw text is discarded) and one
diagnostic is issued. -/
theorem get_bool_invalid (s : String)
    (h : pyLower s ∉ (["true", "false"] : List String)) (st : PSt) :
    get_bool s st = (false, warnSt (invalidChoiceMsg (pyLower s)) st) := by
  have h1 : pyLower s ≠ "true" := by intro hx; simp [hx] at h
  have h2 : pyLower s ≠ "false" := by intro hx; simp [hx] at h
  simp [get_bool, get_literal, List.contains, h1, h2]

/-- A document whose only synset carries a `SynsetRelation` with
`relType="bogus-type"`. -/
def c3docSyn : XTree :=
  .node "LexicalResource" [] none [
    .node "Lexicon"
      [("id","l"),("label","L"),("language","en"),("email","e"),
       ("license","c"),("version","1")] none [
      .node "Synset" [("id","y1"),("ili","i1")] none [
        .node "SynsetRelation" [("relType","bogus-type"),("target","y2")]
          none []
      ]
    ]
  ]

/-- A document whose only sense carries a `SenseRelation` with
`relType="bogus-type"`. -/
def c3docSense : XTree :=
  .node "LexicalResource" [] none [
    .node "Lexicon"
      [("id","l"),("label","L"),("language","en"),("email","e"),
       ("license","c"),("version","1")] none [
      .node "LexicalEntry" [("id","w1")] none [
        .node "Lemma" [("writtenForm","f"),("partOfSpeech","n")] none [],
        .node "Sense" [("id","s1"),("synset","y1")] none [
          .node "SenseRelation" [("relType","bogus-type"),("target","s2")]
            none []
        ]
      ]
    ]
  ]

/-- A document whose only sense carries `adjposition="bogus"`. -/
def c3docAdj : XTree :=
  .node "LexicalResource" [] none [
    .node "Lexicon"
      [("id","l"),("label","L"),("language","en"),("email","e"),
       ("license","c"),("version","1")] none [
      .node "LexicalEntry" [("id","w1")] none [
        .node "Lemma" [("writtenForm","f"),("partOfSpeech","n")] none [],
        .node "Sense" [("id","s1"),("synset","y1"),("adjposition","bogus")]
          none []
      ]
    ]
  ]

/-- The graph `c3docAdj` loads to: the bogus adjposition value is kept. -/
def c3adjGraph : List Lexicon :=
  [{ id := "l", label := "L", language := "en", email := "e",
     license := "c", version := "1",
     lexical_entries := [{
       id := "w1",
       lem := some { form := "f", pos := "n" },
       senses := [{ id := "s1", synset := "y1", adjposition := "bogus" }] }] }]

/-- Concrete end-to-end evaluation: the bogus synset relation aborts the
load. -/
theorem c3synEval : load_resource Vx .v10 (eventsOf c3docSyn) =
    .error (.lmf "invalid synset relation: bogus-type") := rfl

/-- Concrete end-to-end evaluation: the bogus sense relation aborts the
load. -/
theorem c3senseEval : load_resource Vx .v10 (eventsOf c3docSense) =
    .error (.lmf "invalid sense relation: bogus-type") := rfl

/-- Concrete end-to-end evaluation: the bogus adjposition loads, keeping
the raw value, with exactly one diagnostic. -/
theorem c3adjEval : load_resource Vx .v10 (eventsOf c3docAdj) =
    .ok (c3adjGraph, [invalidChoiceMsg "bogus"]) := rfl

/-- C3: a `SynsetRelation` whose `relType` is outside `SYNSET_RELATIONS`,
or a `SenseRelation` whose `relType` is in neither `SENSE_RELATIONS` nor
`SENSE_SYNSET_RELATIONS`, aborts the load with an `LMFError` (no graph is
returned); a `Sense` whose `adjposition` is outside `ADJPOSITIONS` loads
successfully, keeping the raw value, with exactly one diagnostic.  Stated
for the relation/sense loaders over an arbitrary stream continuation and
vocabulary, and end-to-end on concrete documents. -/
theorem c3_relation_validation (V : Vocab) (v : Ver) (ext : Bool)
    (fuel : Nat) (w : List String) (rest : List XEvent) (a a2 : Attrs)
    (x x2 : Option String) (r adj : String)
    (hrt : getA a2 "relType" = some r)
    (h1 : r ∉ V.SYNSET_RELATIONS)
    (h2 : r ∉ V.SENSE_RELATIONS) (h3 : r ∉ V.SENSE_SYNSET_RELATIONS)
    (h4 : adj ∉ V.ADJPOSITIONS) :
    (load_synset_relations V v (fuel + 1)
        ⟨.startE "SynsetRelation" a x ::
          .endE "SynsetRelation" a2 x2 :: rest, w⟩ =
      .error (.lmf ("invalid synset relation: " ++ r))) ∧
    (load_sense_relations V v (fuel + 1)
        ⟨.startE "SenseRelation" a x ::
          .endE "SenseRelation" a2 x2 :: rest, w⟩ =
      .error (.lmf ("invalid sense relation: " ++ r))) ∧
    (load_resource Vx .v10 (eventsOf c3docSyn) =
      .error (.lmf "invalid synset relation: bogus-type")) ∧
    (load_resource Vx .v10 (eventsOf c3docSense) =
      .error (.lmf "invalid sense relation: bogus-type")) ∧
    (load_senses V v ext (fuel + 2)
        ⟨[.startE "Sense"
            [("id","x"),("synset","y"),("adjposition",adj)] none,
          .endE "Sense"
            [("id","x"),("synset","y"),("adjposition",adj)] none], w⟩ =
      .ok ([{ id := "x", synset := "y", adjposition := adj }],
        ⟨[], w ++ [invalidChoiceMsg adj]⟩)) ∧
    (load_resource Vx .v10 (eventsOf c3docAdj) =
      .ok (c3adjGraph, [invalidChoiceMsg "bogus"])) := by
  have hc1 : V.SYNSET_RELATIONS.contains r = false := by simpa using h1
  have hc2 : V.SENSE_RELATIONS.contains r = false := by simpa using h2
  have hc3 : V.SENSE_SYNSET_RELATIONS.contains r = false := by simpa using h3
  have hc4 : V.ADJPOSITIONS.contains adj = false := by simpa using h4
  refine ⟨?_, ?_, c3synEval, c3senseEval, ?_, c3adjEval⟩
  · simp [load_synset_relations, startsAny, startTag, endTag, nextEv, getReq,
      hrt, hc1, h1, bind, Except.bind, pure, Except.pure, joinBar]
  · simp [load_sense_relations, startsAny, startTag, endTag, nextEv, getReq,
      hrt, hc2, hc3, h2, h3, bind, Except.bind, pure, Except.pure, joinBar]
  · cases v <;>
      simp [load_senses, startsAny, startTag, endTag, nextEv, getReq, getA,
        load_sense_relations, load_examples, load_counts, get_metadata,
        get_literal, get_bool, warnSt, clark, DC_URI, DC_ATTRS, hc4, h4, bind,
        Except.bind, pure, Except.pure,
        show pyLower "true" = "true" from rfl]

/-- Witness for C3 at a concrete input. -/
theorem c3_witness :
    load_synset_relations Vx .v10 1
      ⟨[.startE "SynsetRelation" [] none,
        .endE "SynsetRelation" [("relType","bogus-type"),("target","t")]
          none], []⟩ =
      .error (.lmf "invalid synset relation: bogus-type") :=
  (c3_relation_validation Vx .v10 false 0 [] [] []
    [("relType","bogus-type"),("target","t")] none none "bogus-type" "bogus"
    rfl (by decide) (by decide) (by decide) (by decide)).1

/-- A 1.0 document whose only entry has no `Lemma` child (a `Sense` comes
first). -/
def c5doc : XTree :=
  .node "LexicalResource" [] none [
    .node "Lexicon"
      [("id","l"),("label","L"),("language","en"),("email","e"),
       ("license","c"),("version","1")] none [
      .node "LexicalEntry" [("id","w1")] none [
        .node "Sense" [("id","s1"),("synset","y1")] none []
      ]
    ]
  ]

/-- A 1.1 document whose `LexiconExtension` root lacks the mandatory
immediate `Extends` child (a `Requires` comes first). -/
def c5docExt : XTree :=
  .node "LexicalResource" [] none [
    .node "LexiconExtension"
      [("id","l"),("label","L"),("language","en"),("email","e"),
       ("license","c"),("version","1")] none [
      .node "Requires" [("id","base"),("version","1")] none []
    ]
  ]

/-- Concrete end-to-end evaluation: entry without `Lemma` aborts the load. -/
theorem c5lemmaEval : load_resource Vx .v10 (eventsOf c5doc) =
    .error (.lmf "expected <Lemma>, got <Sense>") := rfl

/-- Concrete end-to-end evaluation: extension root without `Extends` aborts
the load. -/
theorem c5extendsEval : load_resource Vx .v11 (eventsOf c5docExt) =
    .error (.lmf "expected <Extends>, got <Requires>") := rfl

/-- C5: a required child that is absent — `Lemma` on a non-external
`LexicalEntry`, or `Extends` immediately inside a `LexiconExtension` root —
aborts the load with an `LMFError` naming the expected and the actual tag;
no graph is returned (the result is an error, not a partial graph).  Stated
over an arbitrary stream continuation (the offending position may be
followed by anything) and end-to-end on concrete documents. -/
theorem c5_missing_required_child (V : Vocab) (v : Ver) (ext : Bool)
    (fuel : Nat) (w : List String) (rest : List XEvent) (t : String)
    (a la : Attrs) (x lx : Option String)
    (h1 : t ≠ "Lemma") (h2 : t ≠ "Extends") :
    (load_lexical_entries V v ext (fuel + 1)
        ⟨.startE "LexicalEntry" [("id", "w1")] none ::
          .startE t a x :: rest, w⟩ =
      .error (.lmf ("expected <Lemma>, got <" ++ t ++ ">"))) ∧
    (load_lexical_entries V v ext (fuel + 1)
        ⟨.startE "LexicalEntry" [("id", "w1")] none ::
          .endE t a x :: rest, w⟩ =
      .error (.lmf ("expected <Lemma>, got </" ++ t ++ ">"))) ∧
    (load_lexicon V .v11 fuel
        ⟨.startE "LexiconExtension" la lx :: .startE t a x :: rest, w⟩ =
      .error (.lmf ("expected <Extends>, got <" ++ t ++ ">"))) ∧
    (load_lexicon V .v11 fuel
        ⟨.startE "LexiconExtension" la lx :: .endE t a x :: rest, w⟩ =
      .error (.lmf ("expected <Extends>, got </" ++ t ++ ">"))) ∧
    (load_resource Vx .v10 (eventsOf c5doc) =
      .error (.lmf "expected <Lemma>, got <Sense>")) ∧
    (load_resource Vx .v11 (eventsOf c5docExt) =
      .error (.lmf "expected <Extends>, got <Requires>")) := by
  refine ⟨?_, ?_, ?_, ?_, c5lemmaEval, c5extendsEval⟩
  · simp [load_lexical_entries, load_lemma, startsAny, startTag, nextEv,
      getReq, getA, h1, bind, Except.bind, pure, Except.pure, joinBar]
    rfl
  · simp [load_lexical_entries, load_lemma, startsAny, startTag, nextEv,
      getReq, getA, bind, Except.bind, pure, Except.pure, joinBar]
    rfl
  · simp [load_lexicon, load_dependency, startsAny, startTag, nextEv, h2,
      bind, Except.bind, pure, Except.pure, joinBar]
    rfl
  · simp [load_lexicon, load_dependency, startsAny, startTag, nextEv, bind,
      Except.bind, pure, Except.pure, joinBar]
    rfl

/-- Witness for C5 at a concrete input. -/
theorem c5_witness :
    load_lexical_entries Vx .v10 false 1
      ⟨[.startE "LexicalEntry" [("id", "w1")] none,
        .startE "Sense" [("id","s1"),("synset","y1")] none], []⟩ =
      .error (.lmf "expected <Lemma>, got <Sense>") :=
  (c5_missing_required_child Vx .v10 false 0 [] [] "Sense"
    [("id","s1"),("synset","y1")] [] none none
    (by decide) (by decide)).1

/-- A 1.0 document whose only sense carries the given `lexicalized`
attribute text. -/
def c7doc (s : String) : XTree :=
  .node "LexicalResource" [] none [
    .node "Lexicon"
      [("id","l"),("label","L"),("language","en"),("email","e"),
       ("license","c"),("version","1")] none [
      .node "LexicalEntry" [("id","w1")] none [
        .node "Lemma" [("writtenForm","f"),("partOfSpeech","n")] none [],
        .node "Sense" [("id","s1"),("synset","y1"),("lexicalized",s)]
          none []
      ]
    ]
  ]

/-- C7 counterexample: a `Sense` with `lexicalized="yes"` loads to exactly
the same graph as one with `lexicalized="false"` — the raw value `"yes"` is
not kept anywhere in the loaded entities, it is coerced to the boolean
false (only a diagnostic distinguishes the two loads), refuting "the raw
value is kept". -/
theorem c7_counterexample :
    (load_resource Vx .v10 (eventsOf (c7doc "yes"))).map Prod.fst =
      (load_resource Vx .v10 (eventsOf (c7doc "false"))).map Prod.fst ∧
    (load_resource Vx .v10 (eventsOf (c7doc "yes"))).map Prod.snd =
      .ok [invalidChoiceMsg "yes"] ∧
    (load_resource Vx .v10 (eventsOf (c7doc "false"))).map Prod.snd =
      .ok [] :=
  ⟨rfl, rfl, rfl⟩

/-- C7 (amended): a `Sense` or `Synset` whose `lexicalized` attribute text,
once lowercased, is outside the vocabulary `{true, false}` loads
non-fatally: the stored `lexicalized` flag is the boolean coercion (true
exactly when the lowercased text is `"true"`, hence false here) — the raw
text is discarded, not kept — and one diagnostic is issued.  Stated on the
sense and synset loaders over an arbitrary vocabulary, and for the
elementary boolean reader both use. -/
theorem c7_lexicalized_coerced (V : Vocab) (v : Ver) (ext : Bool)
    (fuel : Nat) (w : List String) (s : String) (st : PSt)
    (h : pyLower s ∉ (["true", "false"] : List String)) :
    (load_senses V v ext (fuel + 2)
        ⟨[.startE "Sense" [("id","x"),("synset","y"),("lexicalized",s)]
            none,
          .endE "Sense" [("id","x"),("synset","y"),("lexicalized",s)]
            none], w⟩ =
      .ok ([{ id := "x", synset := "y", lexicalized := false }],
        ⟨[], w ++ [invalidChoiceMsg (pyLower s)]⟩)) ∧
    (load_synsets V v ext (fuel + 2)
        ⟨[.startE "Synset" [("id","x"),("ili","i"),("lexicalized",s)] none,
          .endE "Synset" [("id","x"),("ili","i"),("lexicalized",s)] none],
         w⟩ =
      .ok ([{ id := "x", ili := "i", pos := "", lexicalized := false }],
        ⟨[], w ++ [invalidChoiceMsg (pyLower s)]⟩)) ∧
    (get_bool s st = (false, warnSt (invalidChoiceMsg (pyLower s)) st)) := by
  refine ⟨?_, ?_, get_bool_invalid s h st⟩
  · cases v <;>
      simp [load_senses, startsAny, startTag, endTag, nextEv, getReq, getA,
        load_sense_relations, load_examples, load_counts, get_metadata,
        get_literal, warnSt, clark, DC_URI, DC_ATTRS, bind, Except.bind,
        pure, Except.pure, get_bool_invalid s h]
  · cases v <;>
      simp [load_synsets, startsAny, startTag, endTag, nextEv, getReq, getA,
        load_definitions, load_ilidefinition, load_synset_relations,
        load_examples, get_metadata, get_literal, warnSt, clark, DC_URI,
        DC_ATTRS, bind, Except.bind, pure, Except.pure,
        get_bool_invalid s h]

/-- Witness for C7 at a concrete input. -/
theorem c7_witness :
    load_senses Vx .v10 false 2
      ⟨[.startE "Sense" [("id","x"),("synset","y"),("lexicalized","yes")]
          none,
        .endE "Sense" [("id","x"),("synset","y"),("lexicalized","yes")]
          none], []⟩ =
      .ok ([{ id := "x", synset := "y", lexicalized := false }],
        ⟨[], [invalidChoiceMsg "yes"]⟩) :=
  (c7_lexicalized_coerced Vx .v10 false 0 [] "yes" ⟨[], []⟩
    (by decide)).1

/-- A 1.0 document whose lexicon carries the metadata attribute
`note="hello"` and nothing else. -/
def c1doc : XTree :=
  .node "LexicalResource" [] none [
    .node "Lexicon"
      [("id","l"),("label","L"),("language","en"),("email","e"),
       ("license","c"),("version","1"),("note","hello")] none []
  ]

/-- The graph `c1doc` loads to. -/
def c1lex : Lexicon :=
  { id := "l", label := "L", language := "en", email := "e", license := "c",
    version := "1", meta := some { note := some "hello" } }

/-- The graph obtained by dumping `c1lex` and loading the result: the
metadata is gone. -/
def c1lex2 : Lexicon :=
  { id := "l", label := "L", language := "en", email := "e", license := "c",
    version := "1", meta := none }

/-- C1: the round-trip property fails on the code, and the spec (round-trip
fidelity is a stated purpose of the serializer) is clearly the intent:
`_meta_dict` serializes the `status`/`note`/`confidence` metadata slots
under `dc:`-prefixed names (`dc:note`, ...), but the loader reads them from
the unprefixed attributes `status`/`note`/`confidenceScore` and recognizes
only the 14 Dublin-Core names among `dc:`-qualified attributes — so a
loaded graph whose lexicon metadata holds `note="hello"` dumps, reloads
with no metadata at all, and its second dump (without `dc:note`) is not
byte-identical to the first. -/
theorem c1_roundtrip_metadata_lost :
    load_resource Vx .v10 (eventsOf c1doc) = .ok ([c1lex], []) ∧
    c1lex.meta = some { note := some "hello" } ∧
    (dump_tree [c1lex] .v10).map
        (fun tr =>
          load_resource Vx .v10 (eventsOf (reparse (DC_URI .v10) tr))) =
      .ok (.ok ([c1lex2], [])) ∧
    c1lex2.meta = none ∧
    c1lex2 ≠ c1lex ∧
    (dump_tree [c1lex] .v10).map (fun tr => tr.children.map XTree.attrs) =
      .ok [[("id","l"),("label","L"),("language","en"),("email","e"),
            ("license","c"),("version","1"),("dc:note","hello")]] ∧
    (dump_tree [c1lex2] .v10).map (fun tr => tr.children.map XTree.attrs) =
      .ok [[("id","l"),("label","L"),("language","en"),("email","e"),
            ("license","c"),("version","1")]] :=
  ⟨rfl, rfl, rfl, rfl, by decide, rfl, rfl⟩

/-- An entry with two senses `s1`, `s2`. -/
def c2entry : LexicalEntry :=
  { id := "w", lem := some { form := "f", pos := "n" },
    senses := [{ id := "s1", synset := "y1" },
               { id := "s2", synset := "y1" }] }

/-- One recorded frame listing both of the entry's senses. -/
def c2sbs : List SyntacticBehaviour :=
  [{ frame := "F", senses := ["s1", "s2"] }]

/-- C2 counterexample: an entry with two senses both referenced by a single
recorded frame gets that frame emitted *twice* (once per matching sense
id), not exactly once — the dumped entry carries two identical trailing
`SyntacticBehaviour` elements. -/
theorem c2_counterexample :
    (dump_lexical_entry c2entry c2sbs .v10).map
        (fun tr => (tr.children.filter
          (fun c => c.tag == "SyntacticBehaviour")).map XTree.attrs) =
      .ok [[("subcategorizationFrame","F"),("senses","s1 s2")],
           [("subcategorizationFrame","F"),("senses","s1 s2")]] := rfl

theorem foldr_append_eq_bind {α β : Type} (l : List α) (f : α → List β) :
    l.foldr (fun a acc => f a ++ acc) [] = l.bind f := by
  induction l with
  | nil => rfl
  | cons a as ih => simp [ih]

theorem sbmapOf_cons (sb : SyntacticBehaviour)
    (sbs : List SyntacticBehaviour) (sid : String) :
    sbmapOf (sb :: sbs) sid =
      List.replicate (sb.senses.count sid) sb ++ sbmapOf sbs sid := rfl

theorem mem_sbmapOf {sbs : List SyntacticBehaviour} {sid : String}
    {sb' : SyntacticBehaviour} (h : sb' ∈ sbmapOf sbs sid) :
    sb' ∈ sbs ∧ sid ∈ sb'.senses := by
  induction sbs with
  | nil => simp [sbmapOf] at h
  | cons sb rest ih =>
    rw [sbmapOf_cons] at h
    rcases List.mem_append.mp h with hrep | htail
    · rcases List.eq_of_mem_replicate hrep with rfl
      have : sb'.senses.count sid ≠ 0 := by
        intro h0
        rw [h0] at hrep
        simp at hrep
      exact ⟨List.mem_cons_self _ _, List.count_pos_iff_mem.mp
        (Nat.pos_of_ne_zero this)⟩
    · exact ⟨List.mem_cons_of_mem _ (ih htail).1, (ih htail).2⟩

theorem countP_sbmapOf {sbs : List SyntacticBehaviour}
    {sb : SyntacticBehaviour} {sid : String}
    (hnd : sbs.Nodup) (hmem : sb ∈ sbs) :
    (sbmapOf sbs sid).countP (fun x => x == sb) = sb.senses.count sid := by
  induction sbs with
  | nil => simp at hmem
  | cons sb0 rest ih =>
    rw [sbmapOf_cons, List.countP_append]
    rcases List.mem_cons.mp hmem with rfl | hmem'
    · have hzero : (sbmapOf rest sid).countP (fun x => x == sb) = 0 := by
        rw [List.countP_eq_zero]
        intro x hx
        have := (mem_sbmapOf hx).1
        have hne : x ≠ sb := by
          intro rfl2
          subst rfl2
          exact (List.nodup_cons.mp hnd).1 this
        simp [hne]
      rw [hzero]
      simp [List.countP_replicate]
    · have hne : sb0 ≠ sb := by
        intro rfl2
        subst rfl2
        exact (List.nodup_cons.mp hnd).1 hmem'
      have : (List.replicate (sb0.senses.count sid) sb0).countP
          (fun x => x == sb) = 0 := by
        rw [List.countP_eq_zero]
        intro x hx
        rcases List.eq_of_mem_replicate hx with rfl
        simp [hne]
      rw [this, Nat.zero_add]
      exact ih (List.nodup_cons.mp hnd).2 hmem'

theorem strLe_total (s t : String) :
    strLe s t = true ∨ strLe t s = true := by
  unfold strLe
  generalize s.data = as
  generalize t.data = bs
  induction as generalizing bs with
  | nil => left; rfl
  | cons a as ih =>
    cases bs with
    | nil => right; rfl
    | cons b bs =>
      by_cases h1 : a.toNat < b.toNat
      · left; simp [charsLe, h1]
      · by_cases h2 : b.toNat < a.toNat
        · right; simp [charsLe, h2]
        · rcases ih bs with h | h
          · left; simp [charsLe, h1, h2, h]
          · right; simp [charsLe, h1, h2, h]

theorem insertStr_head (s : String) (l : List String) :
    insertStr s l = s :: l ∨
      (∃ t rest, l = t :: rest ∧ insertStr s l = t :: insertStr s rest) := by
  cases l with
  | nil => left; rfl
  | cons t rest =>
    by_cases h : strLe s t = true
    · left; simp [insertStr, h]
    · right; exact ⟨t, rest, rfl, by simp [insertStr, h]⟩

theorem chain_insertStr (s : String) (l : List String)
    (hl : List.Chain' (fun a b => strLe a b = true) l) :
    List.Chain' (fun a b => strLe a b = true) (insertStr s l) := by
  induction l with
  | nil => simp [insertStr]
  | cons t rest ih =>
    by_cases h : strLe s t = true
    · simp only [insertStr, h, if_pos]
      exact List.Chain'.cons h hl
    · simp only [insertStr, h, if_neg, Bool.not_eq_true]
      have hts : strLe t s = true := by
        rcases strLe_total s t with h' | h'
        · exact absurd h' h
        · exact h'
      have htail := ih (List.Chain'.tail hl)
      rcases insertStr_head s rest with heq | ⟨u, rest', hrest, heq⟩
      · rw [heq]
        rw [heq] at htail
        exact List.Chain'.cons hts htail
      · rw [heq]
        refine List.Chain'.cons ?_ (heq ▸ htail)
        subst hrest
        exact List.chain'_cons.mp hl |>.1

theorem chain_sortStrs (l : List String) :
    List.Chain' (fun a b => strLe a b = true) (sortStrs l) := by
  induction l with
  | nil => simp [sortStrs]
  | cons a as ih => exact chain_insertStr a _ ih

theorem perm_insertStr (s : String) (l : List String) :
    (insertStr s l).Perm (s :: l) := by
  induction l with
  | nil => rfl
  | cons t rest ih =>
    by_cases h : strLe s t = true
    · simp [insertStr, h]
    · simp only [insertStr, h, if_neg, Bool.not_eq_true]
      exact (List.Perm.cons t ih).trans (List.Perm.swap s t rest)

theorem perm_sortStrs (l : List String) : (sortStrs l).Perm l := by
  induction l with
  | nil => rfl
  | cons a as ih =>
    exact (perm_insertStr a (sortStrs as)).trans (List.Perm.cons a ih)

theorem nodup_pySetList (l : List String) : (pySetList l).Nodup := by
  have key : ∀ (acc : List String), acc.Nodup →
      (l.foldl (fun acc s => if acc.contains s then acc else acc ++ [s])
        acc).Nodup := by
    induction l with
    | nil => intro acc h; exact h
    | cons a as ih =>
      intro acc h
      simp only [List.foldl_cons]
      by_cases hc : acc.contains a = true
      · rw [if_pos hc]; exact ih acc h
      · rw [if_neg hc]
        refine ih _ ?_
        rw [List.nodup_append]
        refine ⟨h, List.nodup_singleton a, ?_⟩
        intro x hx hxa
        rcases List.mem_singleton.mp hxa with rfl
        exact hc (List.elem_iff.mpr hx)
  exact key [] List.nodup_nil

theorem sbChildren_eq (sbs : List SyntacticBehaviour)
    (entry : LexicalEntry) :
    sbChildren sbs entry =
      (pySetList (entry.senses.map (fun s => s.id))).bind
        (fun sid => (sbmapOf sbs sid).map (fun sb =>
          build_syntactic_behaviour_1_0 sb.frame
            (sortStrs ((pySetList (entry.senses.map (fun s => s.id))).filter
              (fun s => sb.senses.contains s))))) := by
  unfold sbChildren
  exact foldr_append_eq_bind _ _

theorem countP_bind {α β : Type} (l : List α) (f : α → List β)
    (p : β → Bool) :
    (l.bind f).countP p = (l.map (fun a => (f a).countP p)).sum := by
  induction l with
  | nil => simp
  | cons a as ih => simp [List.countP_append, ih]

theorem sum_indicator (S : List String) (p : String → Bool) :
    (S.map (fun s => if p s then 1 else 0)).sum = (S.filter p).length := by
  induction S with
  | nil => simp
  | cons a as ih =>
    by_cases h : p a = true
    · simp [h, ih, List.filter_cons, Nat.add_comm]
    · simp [h, ih, List.filter_cons]

theorem c2_count_conjunct (sbs : List SyntacticBehaviour)
    (entry : LexicalEntry) (sb : SyntacticBehaviour)
    (hf : (sbs.map SyntacticBehaviour.frame).Nodup)
    (hs : ∀ sb' ∈ sbs, sb'.senses.Nodup) (hmem : sb ∈ sbs) :
    (sbChildren sbs entry).countP (fun x => XTree.attrs x ==
        [("subcategorizationFrame", sb.frame),
         ("senses", String.intercalate " "
           (sortStrs ((pySetList (entry.senses.map (fun s => s.id))).filter
             (fun s => sb.senses.contains s))))]) =
      ((pySetList (entry.senses.map (fun s => s.id))).filter
        (fun s => sb.senses.contains s)).length := by
  have hnd : sbs.Nodup := hf.of_map
  have hinj := List.inj_on_of_nodup_map hf
  rw [sbChildren_eq, countP_bind]
  have hper : ∀ sid : String,
      ((sbmapOf sbs sid).map (fun sb' =>
        build_syntactic_behaviour_1_0 sb'.frame
          (sortStrs ((pySetList (entry.senses.map (fun s => s.id))).filter
            (fun s => sb'.senses.contains s))))).countP
        (fun x => XTree.attrs x ==
          [("subcategorizationFrame", sb.frame),
           ("senses", String.intercalate " "
             (sortStrs ((pySetList (entry.senses.map (fun s => s.id))).filter
               (fun s => sb.senses.contains s))))]) =
      sb.senses.count sid := by
    intro sid
    rw [List.countP_map]
    rw [show ((sbmapOf sbs sid).countP _) =
        (sbmapOf sbs sid).countP (fun x => x == sb) from ?_]
    · exact countP_sbmapOf hnd hmem
    · apply List.countP_congr
      intro sb' hsb'
      have hin : sb' ∈ sbs := (mem_sbmapOf hsb').1
      by_cases he : sb' = sb
      · subst he
        simp [Function.comp, build_syntactic_behaviour_1_0, XTree.attrs]
      · have hfr : sb'.frame ≠ sb.frame := fun hfr =>
          he (hinj hin hmem hfr)
        simp [Function.comp, build_syntactic_behaviour_1_0, XTree.attrs,
          he, hfr]
  rw [List.map_congr_left (fun sid _ => hper sid)]
  have hcnt : ∀ sid : String,
      sb.senses.count sid =
        if sb.senses.contains sid then 1 else 0 := by
    intro sid
    by_cases hm : sid ∈ sb.senses
    · rw [if_pos (List.elem_iff.mpr hm)]
      exact List.count_eq_one_of_mem (hs sb hmem) hm
    · rw [if_neg (fun hc => hm (List.elem_iff.mp hc))]
      exact List.count_eq_zero_of_not_mem hm
  rw [List.map_congr_left (fun sid _ => hcnt sid)]
  exact sum_indicator _ _

theorem c2_mem_conjunct (sbs : List SyntacticBehaviour)
    (entry : LexicalEntry) (x : XTree) (hx : x ∈ sbChildren sbs entry) :
    ∃ sb ∈ sbs,
      x = build_syntactic_behaviour_1_0 sb.frame
          (sortStrs ((pySetList (entry.senses.map (fun s => s.id))).filter
            (fun s => sb.senses.contains s))) ∧
      (pySetList (entry.senses.map (fun s => s.id))).filter
        (fun s => sb.senses.contains s) ≠ [] := by
  rw [sbChildren_eq] at hx
  rcases List.mem_bind.mp hx with ⟨sid, hsid, hx2⟩
  rcases List.mem_map.mp hx2 with ⟨sb', hsb', rfl⟩
  have hin := mem_sbmapOf hsb'
  refine ⟨sb', hin.1, rfl, ?_⟩
  have : sid ∈ (pySetList (entry.senses.map (fun s => s.id))).filter
      (fun s => sb'.senses.contains s) :=
    List.mem_filter.mpr ⟨hsid, List.elem_iff.mpr hin.2⟩
  exact List.ne_nil_of_mem this

/-- C2 (amended): at schema 1.0, the `SyntacticBehaviour` elements a
`LexicalEntry` is dumped with trail its `Sense` elements, and every one of
them carries, for some recorded frame intersecting the entry's sense-id
set, the deduplicated (`pySetList` of the entry's sense ids is duplicate
free, and `sortStrs` permutes without loss) and sorted (`sortStrs` output
is `strLe`-ordered) intersection of the entry's sense-id set with that
frame's sense list; however a frame is emitted once *per entry sense id in
its sense list* — a frame intersecting the entry in k sense ids appears k
times, not exactly once.  (Hypotheses: the entry has a lemma — dumping an
external entry crashes — recorded frames are pairwise distinct and their
sense lists duplicate-free, the sane situation the claim describes.) -/
theorem c2_sb_regrouping (entry : LexicalEntry)
    (sbs : List SyntacticBehaviour) (l : Lemma) (hl : entry.lem = some l)
    (hf : (sbs.map SyntacticBehaviour.frame).Nodup)
    (hs : ∀ sb' ∈ sbs, sb'.senses.Nodup) :
    (dump_lexical_entry entry sbs .v10 = .ok (.node "LexicalEntry"
        (("id", entry.id) :: meta_dict entry.meta) none
        (build_lemma l :: (entry.forms.map build_form ++
          entry.senses.map build_sense ++ sbChildren sbs entry)))) ∧
    (∀ sb ∈ sbs,
      (sbChildren sbs entry).countP (fun x => XTree.attrs x ==
          [("subcategorizationFrame", sb.frame),
           ("senses", String.intercalate " "
             (sortStrs ((pySetList (entry.senses.map (fun s => s.id))).filter
               (fun s => sb.senses.contains s))))]) =
        ((pySetList (entry.senses.map (fun s => s.id))).filter
          (fun s => sb.senses.contains s)).length) ∧
    (∀ x ∈ sbChildren sbs entry, ∃ sb ∈ sbs,
      x = build_syntactic_behaviour_1_0 sb.frame
          (sortStrs ((pySetList (entry.senses.map (fun s => s.id))).filter
            (fun s => sb.senses.contains s))) ∧
      (pySetList (entry.senses.map (fun s => s.id))).filter
        (fun s => sb.senses.contains s) ≠ []) ∧
    (∀ m : List String,
      List.Chain' (fun a b => strLe a b = true) (sortStrs m)) ∧
    (∀ m : List String, (sortStrs m).Perm m) ∧
    (∀ m : List String, (pySetList m).Nodup) := by
  refine ⟨?_, fun sb hmem => c2_count_conjunct sbs entry sb hf hs hmem,
    fun x hx => c2_mem_conjunct sbs entry x hx, chain_sortStrs,
    perm_sortStrs, nodup_pySetList⟩
  simp [dump_lexical_entry, hl, bind, Except.bind, pure, Except.pure]

/-- Witness for C2 at a concrete input: the single frame listing both of
the entry's two senses is emitted twice. -/
theorem c2_witness :
    (sbChildren c2sbs c2entry).countP (fun x => XTree.attrs x ==
        [("subcategorizationFrame","F"),("senses","s1 s2")]) = 2 := by
  have h := (c2_sb_regrouping c2entry c2sbs { form := "f", pos := "n" } rfl
    (by decide) (by decide)).2.1 { frame := "F", senses := ["s1", "s2"] }
    (by simp [c2sbs])
  exact h

/-- Number of start events with the given tag in an event list. -/
def cS (t : String) : List XEvent → Nat
  | [] => 0
  | .startE u _ _ :: rest => (if u = t then 1 else 0) + cS t rest
  | .endE _ _ _ :: rest => cS t rest

/-- Number of start events. -/
def nS : List XEvent → Nat
  | [] => 0
  | .startE _ _ _ :: rest => nS rest + 1
  | .endE _ _ _ :: rest => nS rest

/-- Number of end events. -/
def nE : List XEvent → Nat
  | [] => 0
  | .startE _ _ _ :: rest => nE rest
  | .endE _ _ _ :: rest => nE rest + 1

theorem cS_append (t : String) (l1 l2 : List XEvent) :
    cS t (l1 ++ l2) = cS t l1 + cS t l2 := by
  induction l1 with
  | nil => simp [cS]
  | cons e rest ih => cases e <;> simp [cS, ih] <;> omega

theorem nS_append (l1 l2 : List XEvent) :
    nS (l1 ++ l2) = nS l1 + nS l2 := by
  induction l1 with
  | nil => simp [nS]
  | cons e rest ih => cases e <;> simp [nS, ih] <;> omega

theorem nE_append (l1 l2 : List XEvent) :
    nE (l1 ++ l2) = nE l1 + nE l2 := by
  induction l1 with
  | nil => simp [nE]
  | cons e rest ih => cases e <;> simp [nE, ih] <;> omega

mutual

/-- Number of nodes with the given tag in a whole subtree (root included). -/
def tagCount (t : String) : XTree → Nat
  | .node u _ _ cs => (if u = t then 1 else 0) + tagCountList t cs

def tagCountList (t : String) : List XTree → Nat
  | [] => 0
  | c :: cs => tagCount t c + tagCountList t cs

end

mutual

theorem cS_eventsOf (t : String) (tr : XTree) :
    cS t (eventsOf tr) = tagCount t tr := by
  cases tr with
  | node u a x cs =>
    simp [eventsOf, tagCount, cS, cS_append, cS_eventsOfList t cs]

theorem cS_eventsOfList (t : String) (cs : List XTree) :
    cS t (eventsOfList cs) = tagCountList t cs := by
  cases cs with
  | nil => rfl
  | cons c rest =>
    simp [eventsOfList, tagCountList, cS_append, cS_eventsOf t c,
      cS_eventsOfList t rest]

end

mutual

theorem bal_eventsOf (tr : XTree) : nS (eventsOf tr) = nE (eventsOf tr) := by
  cases tr with
  | node u a x cs =>
    have := bal_eventsOfList cs
    simp only [eventsOf, nS, nE, nS_append, nE_append]
    simp [nS, nE]
    omega

theorem bal_eventsOfList (cs : List XTree) :
    nS (eventsOfList cs) = nE (eventsOfList cs) := by
  cases cs with
  | nil => rfl
  | cons c rest =>
    simp [eventsOfList, nS_append, nE_append, bal_eventsOf c,
      bal_eventsOfList rest]

end

mutual

/-- Every prefix of one element's event stream has at least as many starts
as ends. -/
theorem prefix_eventsOf (tr : XTree) :
    ∀ p q : List XEvent, eventsOf tr = p ++ q → nE p ≤ nS p := by
  cases tr with
  | node u a x cs =>
    intro p q h
    cases p with
    | nil => simp [nE, nS]
    | cons e p' =>
      simp only [eventsOf, List.cons_append, List.cons.injEq] at h
      obtain ⟨rfl, h2⟩ := h
      simp only [nE, nS]
      rcases List.append_eq_append_iff.mp h2.symm with ⟨a', ha1, ha2⟩ |
        ⟨c', hc1, hc2⟩
      · have := prefix_eventsOfList cs p' a' ha1
        omega
      · cases c' with
        | nil =>
          rw [List.append_nil] at hc1
          subst hc1
          have := bal_eventsOfList cs
          simp [nE_append, nS_append, nE, nS]
          omega
        | cons y ys =>
          have hys : ys = [] ∧ y = XEvent.endE u a x ∧ q = [] := by
            have hlen := congrArg List.length hc2
            simp at hlen
            cases ys with
            | nil =>
              simp at hc2
              exact ⟨rfl, hc2.1.symm, hc2.2⟩
            | cons z zs =>
              exfalso
              simp at hlen
          obtain ⟨rfl, rfl, rfl⟩ := hys
          subst hc1
          have := bal_eventsOfList cs
          simp [nE_append, nS_append, nE, nS]
          omega

theorem prefix_eventsOfList (cs : List XTree) :
    ∀ p q : List XEvent, eventsOfList cs = p ++ q → nE p ≤ nS p := by
  cases cs with
  | nil =>
    intro p q h
    have : p = [] := by
      cases p with
      | nil => rfl
      | cons e p' => simp [eventsOfList] at h
    subst this
    simp [nE, nS]
  | cons c rest =>
    intro p q h
    simp only [eventsOfList] at h
    rcases List.append_eq_append_iff.mp h.symm with ⟨a', ha1, ha2⟩ |
      ⟨c', hc1, hc2⟩
    · exact prefix_eventsOf c p a' ha1
    · subst hc1
      have h1 := bal_eventsOf c
      have h2 := prefix_eventsOfList rest c' q hc2
      simp [nE_append, nS_append]
      omega
end

theorem scanEvents_append (l1 l2 : List XEvent) (infos : List ScanInfo) :
    scanEvents infos (l1 ++ l2) =
      (scanEvents infos l1).bind (fun i => scanEvents i l2) := by
  induction l1 generalizing infos with
  | nil => simp [scanEvents, Except.bind]
  | cons e rest ih =>
    cases e with
    | startE t a x =>
      simp only [List.cons_append, scanEvents]
      cases h : scanStart infos t a with
      | ok infos' =>
        simp only [h, bind, Except.bind, List.append_eq]
        rw [ih infos']
        cases h2 : scanEvents infos' rest <;> simp [h2, bind, Except.bind]
      | error e => simp [h, bind, Except.bind]
    | endE t a x => simp [scanEvents, ih]

theorem modifyLast_append (f : ScanInfo → ScanInfo) (infos : List ScanInfo)
    (r : ScanInfo) : modifyLast f (infos ++ [r]) = infos ++ [f r] := by
  induction infos with
  | nil => rfl
  | cons i rest ih =>
    cases rest with
    | nil => rfl
    | cons j rest2 =>
      show i :: modifyLast f ((j :: rest2) ++ [r]) =
        i :: ((j :: rest2) ++ [f r])
      rw [ih]

theorem lookup_bumpCount (c : List (String × Nat)) (u t : String) :
    lookupCount (bumpCount c u) t =
      lookupCount c t + (if u = t then 1 else 0) := by
  induction c with
  | nil =>
    simp only [bumpCount, lookupCount]
    by_cases h : u = t
    · simp [h]
    · simp [h]
  | cons kn rest ih =>
    obtain ⟨k, n⟩ := kn
    by_cases hku : k = u
    · subst hku
      simp only [bumpCount, if_pos rfl, lookupCount]
      by_cases hkt : k = t
      · simp [hkt]
      · simp [hkt]
    · simp only [bumpCount, if_neg hku, lookupCount]
      by_cases hkt : k = t
      · have hut : ¬ (u = t) := fun h => hku (hkt.trans h.symm)
        simp [hkt, hut]
      · simp [hkt, ih]

/-- The effect of the scan callback on the current (last) record over a run
of events containing no resource starts: `Extends` starts set the extension
link, every other start bumps that tag's count. -/
def procRec (r : ScanInfo) : List XEvent → Except LoadErr ScanInfo
  | [] => .ok r
  | .startE t a _ :: rest =>
    if t = "Extends" then do
      let did ← getReq a "id"
      let dver ← getReq a "version"
      procRec { r with ext := some (did, dver) } rest
    else procRec { r with counts := bumpCount r.counts t } rest
  | .endE _ _ _ :: rest => procRec r rest

theorem scanStart_extends (infos : List ScanInfo) (a : Attrs)
    (hne : infos ≠ []) :
    scanStart infos "Extends" a = (do
      let did ← getReq a "id"
      let dver ← getReq a "version"
      .ok (modifyLast (fun i => { i with ext := some (did, dver) })
        infos)) := by
  cases infos with
  | nil => exact absurd rfl hne
  | cons i rest => rfl

theorem scanStart_other (infos : List ScanInfo) (t : String) (a : Attrs)
    (h1 : t ≠ "Lexicon") (h2 : t ≠ "LexiconExtension") (h3 : t ≠ "Extends")
    (hne : infos ≠ []) :
    scanStart infos t a =
      .ok (modifyLast (fun i => { i with counts := bumpCount i.counts t })
        infos) := by
  have : infos.isEmpty = false := by
    cases infos with
    | nil => exact absurd rfl hne
    | cons i rest => rfl
  simp [scanStart, h1, h2, h3, this]

theorem scanEvents_no_res (seg : List XEvent) :
    ∀ (r : ScanInfo) (infos : List ScanInfo),
    cS "Lexicon" seg = 0 → cS "LexiconExtension" seg = 0 →
    scanEvents (infos ++ [r]) seg =
      (procRec r seg).map (fun r' => infos ++ [r']) := by
  induction seg with
  | nil => intro r infos _ _; simp [scanEvents, procRec, Except.map]
  | cons e rest ih =>
    intro r infos hL hX
    cases e with
    | startE t a x =>
      simp only [cS] at hL hX
      have ht1 : t ≠ "Lexicon" := by
        intro rfl1; subst rfl1; simp at hL
      have ht2 : t ≠ "LexiconExtension" := by
        intro rfl1; subst rfl1; simp at hX
      have hL' : cS "Lexicon" rest = 0 := by omega
      have hX' : cS "LexiconExtension" rest = 0 := by omega
      have hne : infos ++ [r] ≠ [] := by simp
      by_cases hex : t = "Extends"
      · subst hex
        simp only [scanEvents, bind, Except.bind,
          scanStart_extends (infos ++ [r]) a hne, procRec, if_pos rfl]
        cases hid : getReq a "id" with
        | error e => simp [Except.map]
        | ok did =>
          cases hver : getReq a "version" with
          | error e => simp [Except.map]
          | ok dver =>
            simp only [Except.bind]
            rw [modifyLast_append]
            exact ih _ infos hL' hX'
      · simp only [scanEvents, bind, Except.bind,
          scanStart_other (infos ++ [r]) t a ht1 ht2 hex hne, procRec,
          if_neg hex]
        rw [modifyLast_append]
        exact ih _ infos hL' hX'
    | endE t a x =>
      simp only [cS] at hL hX
      simp only [scanEvents, procRec]
      exact ih r infos hL hX

theorem procRec_counts (seg : List XEvent) :
    ∀ (r r' : ScanInfo), procRec r seg = .ok r' →
    ∀ t : String, t ≠ "Extends" →
      lookupCount r'.counts t = lookupCount r.counts t + cS t seg := by
  induction seg with
  | nil =>
    intro r r' h t _
    simp only [procRec] at h
    cases h
    simp [cS]
  | cons e rest ih =>
    intro r r' h t ht
    cases e with
    | startE u a x =>
      simp only [procRec] at h
      by_cases hu : u = "Extends"
      · subst hu
        rw [if_pos rfl] at h
        cases hid : getReq a "id" with
        | error e => simp [hid, Except.bind, bind] at h
        | ok did =>
          cases hver : getReq a "version" with
          | error e => simp [hid, hver, Except.bind, bind] at h
          | ok dver =>
            simp only [hid, hver, bind, Except.bind] at h
            have := ih _ _ h t ht
            simp only [cS] at this ⊢
            have hne : ¬ ("Extends" = t) := fun hh => ht hh.symm
            simp [hne, this]
      · rw [if_neg hu] at h
        have := ih _ _ h t ht
        simp only [cS]
        rw [this]
        simp [lookup_bumpCount]
        omega
    | endE u a x =>
      simp only [procRec] at h
      have := ih _ _ h t ht
      simp [cS, this]

theorem scanStart_res (infos : List ScanInfo) (t : String) (a : Attrs)
    (h : t = "Lexicon" ∨ t = "LexiconExtension") :
    scanStart infos t a = .ok (infos ++ [⟨a, [], none⟩]) := by
  simp [scanStart, h]

theorem scanStart_skip (t : String) (a : Attrs)
    (h1 : t ≠ "Lexicon") (h2 : t ≠ "LexiconExtension")
    (h3 : t ≠ "Extends") :
    scanStart [] t a = .ok [] := by
  simp [scanStart, h1, h2, h3]

theorem scan_resources (resources : List XTree) :
    ∀ (infos : List ScanInfo) (rest : List XEvent) (out : List ScanInfo),
    (∀ c ∈ resources, c.tag = "Lexicon" ∨ c.tag = "LexiconExtension") →
    (∀ c ∈ resources, tagCountList "Lexicon" c.children = 0) →
    (∀ c ∈ resources, tagCountList "LexiconExtension" c.children = 0) →
    scanEvents infos (eventsOfList resources ++ rest) = .ok out →
    ∃ recs, scanEvents (infos ++ recs) rest = .ok out ∧
      recs.length = resources.length ∧
      ∀ i (hi : i < recs.length) (hc : i < resources.length),
        ∀ t : String, t ≠ "Lexicon" → t ≠ "LexiconExtension" →
          t ≠ "Extends" →
          lookupCount (recs.get ⟨i, hi⟩).counts t =
            tagCountList t (resources.get ⟨i, hc⟩).children := by
  induction resources with
  | nil =>
    intro infos rest out _ _ _ h
    refine ⟨[], by simpa [eventsOfList] using h, rfl, ?_⟩
    intro i hi
    simp at hi
  | cons c cs ih =>
    intro infos rest out hres hL hX hscan
    obtain ⟨ct, ca, cx, ccs⟩ := c
    have htag : ct = "Lexicon" ∨ ct = "LexiconExtension" := by
      have := hres _ (List.mem_cons_self _ _)
      simpa [XTree.tag] using this
    have hcL : tagCountList "Lexicon" ccs = 0 := by
      have := hL _ (List.mem_cons_self _ _)
      simpa [XTree.children] using this
    have hcX : tagCountList "LexiconExtension" ccs = 0 := by
      have := hX _ (List.mem_cons_self _ _)
      simpa [XTree.children] using this
    have hevs : eventsOfList (XTree.node ct ca cx ccs :: cs) ++ rest =
        XEvent.startE ct ca cx ::
          ((eventsOfList ccs ++ [XEvent.endE ct ca cx]) ++
            (eventsOfList cs ++ rest)) := by
      simp [eventsOfList, eventsOf]
    rw [hevs] at hscan
    simp only [scanEvents, scanStart_res infos ct ca htag, bind,
      Except.bind] at hscan
    have hseg : cS "Lexicon" (eventsOfList ccs ++ [XEvent.endE ct ca cx]) =
        0 := by
      simp [cS_append, cS_eventsOfList, hcL, cS]
    have hsegX :
        cS "LexiconExtension"
          (eventsOfList ccs ++ [XEvent.endE ct ca cx]) = 0 := by
      simp [cS_append, cS_eventsOfList, hcX, cS]
    rw [scanEvents_append] at hscan
    rw [scanEvents_no_res _ ⟨ca, [], none⟩ infos hseg hsegX] at hscan
    cases hproc : procRec ⟨ca, [], none⟩
        (eventsOfList ccs ++ [XEvent.endE ct ca cx]) with
    | error e => rw [hproc] at hscan; simp [Except.map, Except.bind] at hscan
    | ok r' =>
      rw [hproc] at hscan
      simp only [Except.map, Except.bind] at hscan
      obtain ⟨recs', hcont, hlen, hcounts⟩ :=
        ih (infos ++ [r']) rest out
          (fun d hd => hres d (List.mem_cons_of_mem _ hd))
          (fun d hd => hL d (List.mem_cons_of_mem _ hd))
          (fun d hd => hX d (List.mem_cons_of_mem _ hd)) hscan
      refine ⟨r' :: recs', ?_, by simp [hlen], ?_⟩
      · rw [show infos ++ r' :: recs' = (infos ++ [r']) ++ recs' by simp]
        exact hcont
      · intro i hi hc t ht1 ht2 ht3
        cases i with
        | zero =>
          have := procRec_counts _ _ _ hproc t ht3
          simp only [lookupCount] at this
          simp only [List.get, XTree.children]
          rw [this]
          simp [cS_append, cS_eventsOfList, cS]
        | succ j =>
          simp only [List.get]
          exact hcounts j (Nat.lt_of_succ_lt_succ hi)
            (Nat.lt_of_succ_lt_succ hc) t ht1 ht2 ht3

/-- C9 (amended): the scanner's per-resource count map records every
*descendant* start tag of the resource (at any depth), not only immediate
children: for a document whose root children are resource elements with no
nested resource tags, the recorded count of every tag other than the
resource tags and `Extends` equals the number of occurrences of that tag
anywhere strictly inside the resource element. -/
theorem c9_descendant_counts (doc : XTree) (infos : List ScanInfo)
    (h1 : doc.tag ≠ "Lexicon") (h2 : doc.tag ≠ "LexiconExtension")
    (h3 : doc.tag ≠ "Extends")
    (hres : ∀ c ∈ doc.children,
      c.tag = "Lexicon" ∨ c.tag = "LexiconExtension")
    (hL : ∀ c ∈ doc.children, tagCountList "Lexicon" c.children = 0)
    (hX : ∀ c ∈ doc.children,
      tagCountList "LexiconExtension" c.children = 0)
    (hscan : scan_lexicons doc = .ok infos) :
    infos.length = doc.children.length ∧
    ∀ i (hi : i < infos.length) (hc : i < doc.children.length),
      ∀ t : String, t ≠ "Lexicon" → t ≠ "LexiconExtension" →
        t ≠ "Extends" →
        lookupCount (infos.get ⟨i, hi⟩).counts t =
          tagCountList t (doc.children.get ⟨i, hc⟩).children := by
  obtain ⟨rt, ra, rx, rcs⟩ := doc
  simp only [XTree.tag] at h1 h2 h3
  simp only [XTree.children] at hres hL hX ⊢
  have hevs : eventsOf (XTree.node rt ra rx rcs) =
      XEvent.startE rt ra rx ::
        (eventsOfList rcs ++ [XEvent.endE rt ra rx]) := by
    simp [eventsOf]
  rw [scan_lexicons, hevs] at hscan
  simp only [scanEvents, scanStart_skip rt ra h1 h2 h3, bind,
    Except.bind] at hscan
  obtain ⟨recs, hcont, hlen, hcounts⟩ :=
    scan_resources rcs [] [XEvent.endE rt ra rx] infos hres hL hX hscan
  have : infos = recs := by
    simp [scanEvents] at hcont
    exact hcont.symm
  subst this
  exact ⟨by simpa using hlen, fun i hi hc t ht1 ht2 ht3 =>
    hcounts i hi hc t ht1 ht2 ht3⟩

instance : Inhabited XTree := ⟨.node "" [] none []⟩

/-- A document whose resource contains a grandchild `Lemma` element. -/
def c9doc : XTree :=
  .node "LexicalResource" [] none [
    .node "Lexicon"
      [("id","l"),("label","L"),("language","en"),("email","e"),
       ("license","c"),("version","1")] none [
      .node "LexicalEntry" [("id","w1")] none [
        .node "Lemma" [("writtenForm","f"),("partOfSpeech","n")] none []
      ]
    ]
  ]

/-- C9 counterexample: the scanner records `Lemma -> 1` for the resource of
`c9doc`, yet `Lemma` occurs zero times as an *immediate* child of that
resource element (it is a grandchild) — the count map does not record
immediate-child counts only. -/
theorem c9_counterexample :
    (scan_lexicons c9doc).map
        (fun infos => infos.map (fun i => lookupCount i.counts "Lemma")) =
      .ok [1] ∧
    ((c9doc.children.headI.children.filter
      (fun c => c.tag == "Lemma")).length = 0) :=
  ⟨rfl, rfl⟩

/-- Witness for C9 at a concrete input: on `c9doc` the recorded count of
`Lemma` equals its descendant count (1). -/
theorem c9_witness :
    lookupCount
      ((⟨[("id","l"),("label","L"),("language","en"),("email","e"),
          ("license","c"),("version","1")],
         [("LexicalEntry", 1), ("Lemma", 1)], none⟩ : ScanInfo)).counts
      "Lemma" =
      tagCountList "Lemma"
        [XTree.node "LexicalEntry" [("id","w1")] none
          [XTree.node "Lemma"
            [("writtenForm","f"),("partOfSpeech","n")] none []]] := by
  have h := c9_descendant_counts c9doc
    [⟨[("id","l"),("label","L"),("language","en"),("email","e"),
       ("license","c"),("version","1")],
      [("LexicalEntry", 1), ("Lemma", 1)], none⟩]
    (by decide) (by decide) (by decide)
    (by intro c hc; simp [c9doc, XTree.children] at hc; subst hc; left; rfl)
    (by intro c hc; simp [c9doc, XTree.children] at hc; subst hc; rfl)
    (by intro c hc; simp [c9doc, XTree.children] at hc; subst hc; rfl)
    rfl
  exact h.2 0 (by decide) (by decide) "Lemma" (by decide) (by decide)
    (by decide)

theorem nextEv_ok {st : PSt} {e : XEvent} {st' : PSt}
    (h : nextEv st = .ok (e, st')) :
    st.evs = e :: st'.evs ∧ st'.warns = st.warns := by
  cases hevs : st.evs with
  | nil => simp [nextEv, hevs] at h
  | cons e0 rest =>
    simp only [nextEv, hevs] at h
    cases h
    exact ⟨rfl, rfl⟩

theorem startTag_ok {tags : List String} {st : PSt} {tg : String}
    {a : Attrs} {st' : PSt} (h : startTag tags st = .ok (tg, a, st')) :
    ∃ x, st.evs = .startE tg a x :: st'.evs ∧ tags.contains tg = true ∧
      st'.warns = st.warns := by
  cases hevs : st.evs with
  | nil => simp [startTag, nextEv, hevs, bind, Except.bind] at h
  | cons e0 rest =>
    simp only [startTag, nextEv, hevs, bind, Except.bind] at h
    cases e0 with
    | startE t0 a0 x0 =>
      by_cases hc : tags.contains t0 = true
      · simp only [if_pos hc] at h
        cases h
        exact ⟨x0, rfl, hc, rfl⟩
      · simp only [if_neg hc] at h
        exact Except.noConfusion h
    | endE t0 a0 x0 => simp at h

theorem endTag_ok {tags : List String} {st : PSt} {a : Attrs}
    {x : Option String} {st' : PSt}
    (h : endTag tags st = .ok (a, x, st')) :
    ∃ tg, st.evs = .endE tg a x :: st'.evs ∧ tags.contains tg = true ∧
      st'.warns = st.warns := by
  cases hevs : st.evs with
  | nil => simp [endTag, nextEv, hevs, bind, Except.bind] at h
  | cons e0 rest =>
    simp only [endTag, nextEv, hevs, bind, Except.bind] at h
    cases e0 with
    | startE t0 a0 x0 => simp at h
    | endE t0 a0 x0 =>
      by_cases hc : tags.contains t0 = true
      · simp only [if_pos hc] at h
        cases h
        exact ⟨t0, rfl, hc, rfl⟩
      · simp only [if_neg hc] at h
        exact Except.noConfusion h

theorem get_literal_evs (v : Option String) (c : List String) (st : PSt) :
    (get_literal v c st).2.evs = st.evs := by
  cases v with
  | none => rfl
  | some s =>
    simp only [get_literal]
    split <;> simp [warnSt]

theorem get_bool_evs (v : String) (st : PSt) :
    (get_bool v st).2.evs = st.evs := by
  simp [get_bool, get_literal_evs]

theorem get_metadata_evs (a : Attrs) (v : Ver) (st : PSt) :
    (get_metadata a v st).2.evs = st.evs := by
  simp only [get_metadata]
  cases hc : getA a "confidenceScore" with
  | none => split <;> rfl
  | some s =>
    dsimp only
    cases hf : pyFloat s with
    | none => split <;> rfl
    | some q =>
      by_cases hr : 0 ≤ q ∧ q ≤ 1 <;> split <;> simp [hr, warnSt]

/-- Concatenation of a list of event segments. -/
def segJoin : List (List XEvent) → List XEvent
  | [] => []
  | s :: ss => s ++ segJoin ss

/-- Accounting facts about a consumed event segment: it is balanced, it
contains no resource start tags, and its entry/synset start-tag totals are
the given numbers. -/
def loopOk (seg : List XEvent) (ne1 ns1 : Nat) : Prop :=
  nS seg = nE seg ∧
  cS "Lexicon" seg = 0 ∧ cS "LexiconExtension" seg = 0 ∧
  cS "LexicalEntry" seg + cS "ExternalLexicalEntry" seg = ne1 ∧
  cS "Synset" seg + cS "ExternalSynset" seg = ns1

/-- A consumed segment containing none of the counted tags. -/
def bodyOk (seg : List XEvent) : Prop := loopOk seg 0 0

theorem loopOk_append {a b : List XEvent} {m n p q : Nat}
    (ha : loopOk a m p) (hb : loopOk b n q) :
    loopOk (a ++ b) (m + n) (p + q) := by
  obtain ⟨h1, h2, h3, h4, h5⟩ := ha
  obtain ⟨g1, g2, g3, g4, g5⟩ := hb
  refine ⟨?_, ?_, ?_, ?_, ?_⟩ <;>
    simp only [nS_append, nE_append, cS_append] <;> omega

theorem bodyOk_nil : bodyOk [] := ⟨rfl, rfl, rfl, rfl, rfl⟩

theorem bodyOk_append {a b : List XEvent} (ha : bodyOk a) (hb : bodyOk b) :
    bodyOk (a ++ b) := by
  simpa using loopOk_append ha hb

theorem bodyOk_pair {t : String} (h1 : ¬(t = "Lexicon"))
    (h2 : ¬(t = "LexiconExtension")) (h3 : ¬(t = "LexicalEntry"))
    (h4 : ¬(t = "ExternalLexicalEntry")) (h5 : ¬(t = "Synset"))
    (h6 : ¬(t = "ExternalSynset")) (a : Attrs) (x : Option String)
    (t2 : String) (a2 : Attrs) (x2 : Option String) :
    bodyOk [XEvent.startE t a x, XEvent.endE t2 a2 x2] := by
  refine ⟨rfl, ?_, ?_, ?_, ?_⟩ <;> simp [cS, h1, h2, h3, h4, h5, h6]

theorem bodyOk_wrap {t : String} (h1 : ¬(t = "Lexicon"))
    (h2 : ¬(t = "LexiconExtension")) (h3 : ¬(t = "LexicalEntry"))
    (h4 : ¬(t = "ExternalLexicalEntry")) (h5 : ¬(t = "Synset"))
    (h6 : ¬(t = "ExternalSynset")) {inner : List XEvent}
    (hin : bodyOk inner) (a : Attrs) (x : Option String) (t2 : String)
    (a2 : Attrs) (x2 : Option String) :
    bodyOk (XEvent.startE t a x :: (inner ++ [XEvent.endE t2 a2 x2])) := by
  obtain ⟨b1, b2, b3, b4, b5⟩ := hin
  refine ⟨?_, ?_, ?_, ?_, ?_⟩ <;>
    simp [cS, nS, nE, cS_append, nS_append, nE_append,
      h1, h2, h3, h4, h5, h6, b2, b3] <;> omega

/-- Inversion for a successful `Except` bind. -/
theorem bind_ok {α β : Type} {m : Except LoadErr α} {f : α → Except LoadErr β}
    {b : β} (h : (m >>= f) = .ok b) : ∃ a, m = .ok a ∧ f a = .ok b := by
  cases m with
  | error e => simp [bind, Except.bind] at h
  | ok a => exact ⟨a, rfl, by simpa [bind, Except.bind] using h⟩

theorem startsAny_cons {tags : List String} {st : PSt}
    (h : startsAny tags st = true) :
    ∃ t a x rest, st.evs = .startE t a x :: rest ∧
      tags.contains t = true := by
  cases hevs : st.evs with
  | nil => simp [startsAny, hevs] at h
  | cons e r =>
    cases e with
    | startE t a x =>
      refine ⟨t, a, x, r, rfl, ?_⟩
      simpa [startsAny, hevs] using h
    | endE t a x => simp [startsAny, hevs] at h

/-- Consumption lemma for `load_tags`: a successful call consumes a balanced
segment containing none of the counted start tags. -/
theorem LC_tags : ∀ (fuel : Nat) (st : PSt) (res : List Tag) (st2 : PSt),
    load_tags fuel st = .ok (res, st2) →
    ∃ seg, st.evs = seg ++ st2.evs ∧ bodyOk seg := by
  intro fuel
  induction fuel with
  | zero =>
    intro st res st2 h
    simp [load_tags, fuelErr] at h
  | succ n ih =>
    intro st res st2 h
    simp only [load_tags] at h
    by_cases hs : startsAny ["Tag"] st = true
    · rw [if_pos hs] at h
      obtain ⟨⟨e1, stA⟩, h1, h⟩ := bind_ok h
      obtain ⟨⟨attrs, text, stB⟩, h2, h⟩ := bind_ok h
      obtain ⟨category, h3, h⟩ := bind_ok h
      obtain ⟨⟨tags1, stC⟩, h4, h⟩ := bind_ok h
      dsimp only at h2 h3 h4 h
      cases h
      obtain ⟨hA, hwA⟩ := nextEv_ok h1
      obtain ⟨tg, hB, hcontB, hwB⟩ := endTag_ok h2
      obtain ⟨seg, hC, hbody⟩ := ih stB tags1 st2 h4
      obtain ⟨t0, a0, x0, rest0, hevs0, hcont0⟩ := startsAny_cons hs
      have ht0 : t0 = "Tag" := by simpa using hcont0
      subst ht0
      have hinj : e1 :: stA.evs = XEvent.startE "Tag" a0 x0 :: rest0 := by
        rw [← hA, hevs0]
      injection hinj with he1 hrest
      refine ⟨XEvent.startE "Tag" a0 x0 :: XEvent.endE tg attrs text :: seg,
        ?_, ?_⟩
      · rw [hA, he1, hB, hC]
        simp
      · exact bodyOk_append
          (bodyOk_pair (by decide) (by decide) (by decide) (by decide)
            (by decide) (by decide) a0 x0 tg attrs text) hbody
    · rw [if_neg hs] at h
      cases h
      exact ⟨[], by simp, bodyOk_nil⟩

/-- Consumption lemma for `load_forms`. -/
theorem LC_forms : ∀ (fuel : Nat) (st : PSt) (res : List Form) (st2 : PSt),
    load_forms fuel st = .ok (res, st2) →
    ∃ seg, st.evs = seg ++ st2.evs ∧ bodyOk seg := by
  intro fuel
  induction fuel with
  | zero =>
    intro st res st2 h
    simp [load_forms, fuelErr] at h
  | succ n ih =>
    intro st res st2 h
    simp only [load_forms] at h
    by_cases hs : startsAny ["Form"] st = true
    · rw [if_pos hs] at h
      obtain ⟨⟨e1, stA⟩, h1, h⟩ := bind_ok h
      dsimp only at h
      obtain ⟨wf, h2, h⟩ := bind_ok h
      obtain ⟨⟨tags1, stB⟩, h3, h⟩ := bind_ok h
      dsimp only at h
      obtain ⟨⟨a9, x9, stC⟩, h4, h⟩ := bind_ok h
      dsimp only at h
      obtain ⟨⟨forms1, stD⟩, h5, h⟩ := bind_ok h
      dsimp only at h3 h4 h5 h
      cases h
      obtain ⟨hA, hwA⟩ := nextEv_ok h1
      obtain ⟨segT, hT, hbT⟩ := LC_tags n stA tags1 stB h3
      obtain ⟨tg, hB, hcontB, hwB⟩ := endTag_ok h4
      obtain ⟨segR, hR, hbR⟩ := ih stC forms1 st2 h5
      obtain ⟨t0, a0, x0, rest0, hevs0, hcont0⟩ := startsAny_cons hs
      have ht0 : t0 = "Form" := by simpa using hcont0
      subst ht0
      have hinj : e1 :: stA.evs = XEvent.startE "Form" a0 x0 :: rest0 := by
        rw [← hA, hevs0]
      injection hinj with he1 hrest
      refine ⟨(XEvent.startE "Form" a0 x0 ::
        (segT ++ [XEvent.endE tg a9 x9])) ++ segR, ?_, ?_⟩
      · rw [hA, he1, hT, hB, hR]
        simp
      · exact bodyOk_append
          (bodyOk_wrap (by decide) (by decide) (by decide) (by decide)
            (by decide) (by decide) hbT a0 x0 tg a9 x9) hbR
    · rw [if_neg hs] at h
      cases h
      exact ⟨[], by simp, bodyOk_nil⟩

/-- Consumption lemma for `load_lemma`. -/
theorem LC_lemma (V : Vocab) (fuel : Nat) (st : PSt) (res : Lemma)
    (st2 : PSt) (h : load_lemma V fuel st = .ok (res, st2)) :
    ∃ seg, st.evs = seg ++ st2.evs ∧ bodyOk seg := by
  simp only [load_lemma] at h
  obtain ⟨⟨ltag, attrs, stA⟩, h1, h⟩ := bind_ok h
  dsimp only at h
  obtain ⟨wf, h2, h⟩ := bind_ok h
  obtain ⟨pr, h3, h⟩ := bind_ok h
  cases hgl : get_literal (some pr) V.PARTS_OF_SPEECH stA with
  | mk pos1 stB =>
    rw [hgl] at h
    dsimp only at h
    obtain ⟨⟨tags1, stC⟩, h4, h⟩ := bind_ok h
    dsimp only at h
    obtain ⟨⟨a9, x9, stD⟩, h5, h⟩ := bind_ok h
    dsimp only at h4 h5 h
    cases h
    obtain ⟨x0, hA, hcont, hwA⟩ := startTag_ok h1
    have hlt : ltag = "Lemma" := by simpa using hcont
    subst hlt
    have hglev := get_literal_evs (some pr) V.PARTS_OF_SPEECH stA
    rw [hgl] at hglev
    dsimp only at hglev
    obtain ⟨segT, hT, hbT⟩ := LC_tags fuel stB tags1 stC h4
    obtain ⟨tg, hB, hcontB, hwB⟩ := endTag_ok h5
    refine ⟨XEvent.startE "Lemma" attrs x0 ::
      (segT ++ [XEvent.endE tg a9 x9]), ?_, ?_⟩
    · rw [hA, ← hglev, hT, hB]
      simp
    · exact bodyOk_wrap (by decide) (by decide) (by decide) (by decide)
        (by decide) (by decide) hbT attrs x0 tg a9 x9

/-- Consumption lemma for `load_sense_relations`. -/
theorem LC_senseRels (V : Vocab) (v : Ver) :
    ∀ (fuel : Nat) (st : PSt) (res : List SenseRelation) (st2 : PSt),
    load_sense_relations V v fuel st = .ok (res, st2) →
    ∃ seg, st.evs = seg ++ st2.evs ∧ bodyOk seg := by
  intro fuel
  induction fuel with
  | zero =>
    intro st res st2 h
    simp [load_sense_relations, fuelErr] at h
  | succ n ih =>
    intro st res st2 h
    simp only [load_sense_relations] at h
    by_cases hs : startsAny ["SenseRelation"] st = true
    · rw [if_pos hs] at h
      obtain ⟨⟨e1, stA⟩, h1, h⟩ := bind_ok h
      dsimp only at h
      obtain ⟨⟨attrs, x9, stB⟩, h2, h⟩ := bind_ok h
      dsimp only at h
      obtain ⟨rt, h3, h⟩ := bind_ok h
      by_cases hrel : (V.SENSE_RELATIONS.contains rt ||
          V.SENSE_SYNSET_RELATIONS.contains rt) = true
      · rw [if_pos hrel] at h
        obtain ⟨tgt, h4, h⟩ := bind_ok h
        cases hgm : get_metadata attrs v stB with
        | mk meta1 stC =>
          rw [hgm] at h
          dsimp only at h
          obtain ⟨⟨rels1, stD⟩, h5, h⟩ := bind_ok h
          dsimp only at h2 h5 h
          cases h
          obtain ⟨hA, hwA⟩ := nextEv_ok h1
          obtain ⟨tg, hB, hcontB, hwB⟩ := endTag_ok h2
          have hgmev := get_metadata_evs attrs v stB
          rw [hgm] at hgmev
          dsimp only at hgmev
          obtain ⟨segR, hR, hbR⟩ := ih stC rels1 st2 h5
          obtain ⟨t0, a0, x0, rest0, hevs0, hcont0⟩ := startsAny_cons hs
          have ht0 : t0 = "SenseRelation" := by simpa using hcont0
          subst ht0
          have hinj : e1 :: stA.evs =
              XEvent.startE "SenseRelation" a0 x0 :: rest0 := by
            rw [← hA, hevs0]
          injection hinj with he1 hrest
          refine ⟨XEvent.startE "SenseRelation" a0 x0 ::
            XEvent.endE tg attrs x9 :: segR, ?_, ?_⟩
          · rw [hA, he1, hB, ← hgmev, hR]
            simp
          · exact bodyOk_append
              (bodyOk_pair (by decide) (by decide) (by decide) (by decide)
                (by decide) (by decide) a0 x0 tg attrs x9) hbR
      · rw [if_neg hrel] at h
        simp at h
    · rw [if_neg hs] at h
      cases h
      exact ⟨[], by simp, bodyOk_nil⟩

/-- Consumption lemma for `load_examples`. -/
theorem LC_examples (v : Ver) :
    ∀ (fuel : Nat) (st : PSt) (res : List Example) (st2 : PSt),
    load_examples v fuel st = .ok (res, st2) →
    ∃ seg, st.evs = seg ++ st2.evs ∧ bodyOk seg := by
  intro fuel
  induction fuel with
  | zero =>
    intro st res st2 h
    simp [load_examples, fuelErr] at h
  | succ n ih =>
    intro st res st2 h
    simp only [load_examples] at h
    by_cases hs : startsAny ["Example"] st = true
    · rw [if_pos hs] at h
      obtain ⟨⟨e1, stA⟩, h1, h⟩ := bind_ok h
      dsimp only at h
      obtain ⟨⟨attrs, x9, stB⟩, h2, h⟩ := bind_ok h
      dsimp only at h
      cases hgm : get_metadata attrs v stB with
      | mk meta1 stC =>
        rw [hgm] at h
        dsimp only at h
        obtain ⟨⟨exs1, stD⟩, h5, h⟩ := bind_ok h
        dsimp only at h2 h5 h
        cases h
        obtain ⟨hA, hwA⟩ := nextEv_ok h1
        obtain ⟨tg, hB, hcontB, hwB⟩ := endTag_ok h2
        have hgmev := get_metadata_evs attrs v stB
        rw [hgm] at hgmev
        dsimp only at hgmev
        obtain ⟨segR, hR, hbR⟩ := ih stC exs1 st2 h5
        obtain ⟨t0, a0, x0, rest0, hevs0, hcont0⟩ := startsAny_cons hs
        have ht0 : t0 = "Example" := by simpa using hcont0
        subst ht0
        have hinj : e1 :: stA.evs =
            XEvent.startE "Example" a0 x0 :: rest0 := by
          rw [← hA, hevs0]
        injection hinj with he1 hrest
        refine ⟨XEvent.startE "Example" a0 x0 ::
          XEvent.endE tg attrs x9 :: segR, ?_, ?_⟩
        · rw [hA, he1, hB, ← hgmev, hR]
          simp
        · exact bodyOk_append
            (bodyOk_pair (by decide) (by decide) (by decide) (by decide)
              (by decide) (by decide) a0 x0 tg attrs x9) hbR
    · rw [if_neg hs] at h
      cases h
      exact ⟨[], by simp, bodyOk_nil⟩

/-- Consumption lemma for `load_counts`. -/
theorem LC_counts (v : Ver) :
    ∀ (fuel : Nat) (st : PSt) (res : List Count) (st2 : PSt),
    load_counts v fuel st = .ok (res, st2) →
    ∃ seg, st.evs = seg ++ st2.evs ∧ bodyOk seg := by
  intro fuel
  induction fuel with
  | zero =>
    intro st res st2 h
    simp [load_counts, fuelErr] at h
  | succ n ih =>
    intro st res st2 h
    simp only [load_counts] at h
    by_cases hs : startsAny ["Count"] st = true
    · rw [if_pos hs] at h
      obtain ⟨⟨e1, stA⟩, h1, h⟩ := bind_ok h
      dsimp only at h
      obtain ⟨⟨attrs, text, stB⟩, h2, h⟩ := bind_ok h
      dsimp only at h2 h
      cases text with
      | none => simp at h
      | some s =>
        cases hpi : pyInt s with
        | some nn =>
          simp only [hpi] at h
          cases hgm : get_metadata attrs v stB with
          | mk meta1 stC =>
            rw [hgm] at h
            dsimp only at h
            obtain ⟨⟨cnts1, stD⟩, h5, h⟩ := bind_ok h
            dsimp only at h5 h
            cases h
            obtain ⟨hA, hwA⟩ := nextEv_ok h1
            obtain ⟨tg, hB, hcontB, hwB⟩ := endTag_ok h2
            have hgmev := get_metadata_evs attrs v stB
            rw [hgm] at hgmev
            dsimp only at hgmev
            obtain ⟨segR, hR, hbR⟩ := ih stC cnts1 st2 h5
            obtain ⟨t0, a0, x0, rest0, hevs0, hcont0⟩ := startsAny_cons hs
            have ht0 : t0 = "Count" := by simpa using hcont0
            subst ht0
            have hinj : e1 :: stA.evs =
                XEvent.startE "Count" a0 x0 :: rest0 := by
              rw [← hA, hevs0]
            injection hinj with he1 hrest
            refine ⟨XEvent.startE "Count" a0 x0 ::
              XEvent.endE tg attrs (some s) :: segR, ?_, ?_⟩
            · rw [hA, he1, hB, ← hgmev, hR]
              simp
            · exact bodyOk_append
                (bodyOk_pair (by decide) (by decide) (by decide) (by decide)
                  (by decide) (by decide) a0 x0 tg attrs (some s)) hbR
        | none =>
          simp only [hpi] at h
          cases hgm : get_metadata attrs v
              (warnSt ("count must be an integer: " ++ s) stB) with
          | mk meta1 stC =>
            rw [hgm] at h
            dsimp only at h
            obtain ⟨⟨cnts1, stD⟩, h5, h⟩ := bind_ok h
            dsimp only at h5 h
            cases h
            obtain ⟨hA, hwA⟩ := nextEv_ok h1
            obtain ⟨tg, hB, hcontB, hwB⟩ := endTag_ok h2
            have hgmev := get_metadata_evs attrs v
              (warnSt ("count must be an integer: " ++ s) stB)
            rw [hgm] at hgmev
            dsimp only at hgmev
            have hwev : (warnSt ("count must be an integer: " ++ s)
                stB).evs = stB.evs := rfl
            obtain ⟨segR, hR, hbR⟩ := ih stC cnts1 st2 h5
            obtain ⟨t0, a0, x0, rest0, hevs0, hcont0⟩ := startsAny_cons hs
            have ht0 : t0 = "Count" := by simpa using hcont0
            subst ht0
            have hinj : e1 :: stA.evs =
                XEvent.startE "Count" a0 x0 :: rest0 := by
              rw [← hA, hevs0]
            injection hinj with he1 hrest
            refine ⟨XEvent.startE "Count" a0 x0 ::
              XEvent.endE tg attrs (some s) :: segR, ?_, ?_⟩
            · rw [hA, he1, hB, ← hwev, ← hgmev, hR]
              simp
            · exact bodyOk_append
                (bodyOk_pair (by decide) (by decide) (by decide) (by decide)
                  (by decide) (by decide) a0 x0 tg attrs (some s)) hbR
    · rw [if_neg hs] at h
      cases h
      exact ⟨[], by simp, bodyOk_nil⟩

/-- Consumption lemma for `load_syntactic_behaviours`. -/
theorem LC_sbs (v : Ver) :
    ∀ (fuel : Nat) (st : PSt) (res : List SyntacticBehaviour) (st2 : PSt),
    load_syntactic_behaviours v fuel st = .ok (res, st2) →
    ∃ seg, st.evs = seg ++ st2.evs ∧ bodyOk seg := by
  intro fuel
  induction fuel with
  | zero =>
    intro st res st2 h
    simp [load_syntactic_behaviours, fuelErr] at h
  | succ n ih =>
    intro st res st2 h
    simp only [load_syntactic_behaviours] at h
    by_cases hs : startsAny ["SyntacticBehaviour"] st = true
    · rw [if_pos hs] at h
      obtain ⟨⟨e1, stA⟩, h1, h⟩ := bind_ok h
      dsimp only at h
      obtain ⟨⟨attrs, x9, stB⟩, h2, h⟩ := bind_ok h
      dsimp only at h
      obtain ⟨fr, h3, h⟩ := bind_ok h
      obtain ⟨⟨sbs1, stD⟩, h5, h⟩ := bind_ok h
      dsimp only at h2 h5 h
      cases h
      obtain ⟨hA, hwA⟩ := nextEv_ok h1
      obtain ⟨tg, hB, hcontB, hwB⟩ := endTag_ok h2
      obtain ⟨segR, hR, hbR⟩ := ih stB sbs1 st2 h5
      obtain ⟨t0, a0, x0, rest0, hevs0, hcont0⟩ := startsAny_cons hs
      have ht0 : t0 = "SyntacticBehaviour" := by simpa using hcont0
      subst ht0
      have hinj : e1 :: stA.evs =
          XEvent.startE "SyntacticBehaviour" a0 x0 :: rest0 := by
        rw [← hA, hevs0]
      injection hinj with he1 hrest
      refine ⟨XEvent.startE "SyntacticBehaviour" a0 x0 ::
        XEvent.endE tg attrs x9 :: segR, ?_, ?_⟩
      · rw [hA, he1, hB, hR]
        simp
      · exact bodyOk_append
          (bodyOk_pair (by decide) (by decide) (by decide) (by decide)
            (by decide) (by decide) a0 x0 tg attrs x9) hbR
    · rw [if_neg hs] at h
      cases h
      exact ⟨[], by simp, bodyOk_nil⟩

/-- Consumption lemma for `load_definitions`. -/
theorem LC_definitions (v : Ver) :
    ∀ (fuel : Nat) (st : PSt) (res : List Definition) (st2 : PSt),
    load_definitions v fuel st = .ok (res, st2) →
    ∃ seg, st.evs = seg ++ st2.evs ∧ bodyOk seg := by
  intro fuel
  induction fuel with
  | zero =>
    intro st res st2 h
    simp [load_definitions, fuelErr] at h
  | succ n ih =>
    intro st res st2 h
    simp only [load_definitions] at h
    by_cases hs : startsAny ["Definition"] st = true
    · rw [if_pos hs] at h
      obtain ⟨⟨e1, stA⟩, h1, h⟩ := bind_ok h
      dsimp only at h
      obtain ⟨⟨attrs, x9, stB⟩, h2, h⟩ := bind_ok h
      dsimp only at h
      cases hgm : get_metadata attrs v stB with
      | mk meta1 stC =>
        rw [hgm] at h
        dsimp only at h
        obtain ⟨⟨defs1, stD⟩, h5, h⟩ := bind_ok h
        dsimp only at h2 h5 h
        cases h
        obtain ⟨hA, hwA⟩ := nextEv_ok h1
        obtain ⟨tg, hB, hcontB, hwB⟩ := endTag_ok h2
        have hgmev := get_metadata_evs attrs v stB
        rw [hgm] at hgmev
        dsimp only at hgmev
        obtain ⟨segR, hR, hbR⟩ := ih stC defs1 st2 h5
        obtain ⟨t0, a0, x0, rest0, hevs0, hcont0⟩ := startsAny_cons hs
        have ht0 : t0 = "Definition" := by simpa using hcont0
        subst ht0
        have hinj : e1 :: stA.evs =
            XEvent.startE "Definition" a0 x0 :: rest0 := by
          rw [← hA, hevs0]
        injection hinj with he1 hrest
        refine ⟨XEvent.startE "Definition" a0 x0 ::
          XEvent.endE tg attrs x9 :: segR, ?_, ?_⟩
        · rw [hA, he1, hB, ← hgmev, hR]
          simp
        · exact bodyOk_append
            (bodyOk_pair (by decide) (by decide) (by decide) (by decide)
              (by decide) (by decide) a0 x0 tg attrs x9) hbR
    · rw [if_neg hs] at h
      cases h
      exact ⟨[], by simp, bodyOk_nil⟩

/-- Consumption lemma for `load_ilidefinition`. -/
theorem LC_iliDef (v : Ver) (st : PSt) (res : Option ILIDefinition)
    (st2 : PSt) (h : load_ilidefinition v st = .ok (res, st2)) :
    ∃ seg, st.evs = seg ++ st2.evs ∧ bodyOk seg := by
  simp only [load_ilidefinition] at h
  by_cases hs : startsAny ["ILIDefinition"] st = true
  · rw [if_pos hs] at h
    obtain ⟨⟨e1, stA⟩, h1, h⟩ := bind_ok h
    dsimp only at h
    obtain ⟨⟨attrs, x9, stB⟩, h2, h⟩ := bind_ok h
    dsimp only at h
    cases hgm : get_metadata attrs v stB with
    | mk meta1 stC =>
      rw [hgm] at h
      dsimp only at h2 h
      cases h
      obtain ⟨hA, hwA⟩ := nextEv_ok h1
      obtain ⟨tg, hB, hcontB, hwB⟩ := endTag_ok h2
      have hgmev := get_metadata_evs attrs v stB
      rw [hgm] at hgmev
      dsimp only at hgmev
      obtain ⟨t0, a0, x0, rest0, hevs0, hcont0⟩ := startsAny_cons hs
      have ht0 : t0 = "ILIDefinition" := by simpa using hcont0
      subst ht0
      have hinj : e1 :: stA.evs =
          XEvent.startE "ILIDefinition" a0 x0 :: rest0 := by
        rw [← hA, hevs0]
      injection hinj with he1 hrest
      refine ⟨[XEvent.startE "ILIDefinition" a0 x0,
        XEvent.endE tg attrs x9], ?_, ?_⟩
      · rw [hA, he1, hB, ← hgmev]
        simp
      · exact bodyOk_pair (by decide) (by decide) (by decide) (by decide)
          (by decide) (by decide) a0 x0 tg attrs x9
  · rw [if_neg hs] at h
    cases h
    exact ⟨[], by simp, bodyOk_nil⟩

/-- Consumption lemma for `load_synset_relations`. -/
theorem LC_synsetRels (V : Vocab) (v : Ver) :
    ∀ (fuel : Nat) (st : PSt) (res : List SynsetRelation) (st2 : PSt),
    load_synset_relations V v fuel st = .ok (res, st2) →
    ∃ seg, st.evs = seg ++ st2.evs ∧ bodyOk seg := by
  intro fuel
  induction fuel with
  | zero =>
    intro st res st2 h
    simp [load_synset_relations, fuelErr] at h
  | succ n ih =>
    intro st res st2 h
    simp only [load_synset_relations] at h
    by_cases hs : startsAny ["SynsetRelation"] st = true
    · rw [if_pos hs] at h
      obtain ⟨⟨e1, stA⟩, h1, h⟩ := bind_ok h
      dsimp only at h
      obtain ⟨⟨attrs, x9, stB⟩, h2, h⟩ := bind_ok h
      dsimp only at h
      obtain ⟨rt, h3, h⟩ := bind_ok h
      by_cases hrel : V.SYNSET_RELATIONS.contains rt = true
      · rw [if_pos hrel] at h
        obtain ⟨tgt, h4, h⟩ := bind_ok h
        cases hgm : get_metadata attrs v stB with
        | mk meta1 stC =>
          rw [hgm] at h
          dsimp only at h
          obtain ⟨⟨rels1, stD⟩, h5, h⟩ := bind_ok h
          dsimp only at h2 h5 h
          cases h
          obtain ⟨hA, hwA⟩ := nextEv_ok h1
          obtain ⟨tg, hB, hcontB, hwB⟩ := endTag_ok h2
          have hgmev := get_metadata_evs attrs v stB
          rw [hgm] at hgmev
          dsimp only at hgmev
          obtain ⟨segR, hR, hbR⟩ := ih stC rels1 st2 h5
          obtain ⟨t0, a0, x0, rest0, hevs0, hcont0⟩ := startsAny_cons hs
          have ht0 : t0 = "SynsetRelation" := by simpa using hcont0
          subst ht0
          have hinj : e1 :: stA.evs =
              XEvent.startE "SynsetRelation" a0 x0 :: rest0 := by
            rw [← hA, hevs0]
          injection hinj with he1 hrest
          refine ⟨XEvent.startE "SynsetRelation" a0 x0 ::
            XEvent.endE tg attrs x9 :: segR, ?_, ?_⟩
          · rw [hA, he1, hB, ← hgmev, hR]
            simp
          · exact bodyOk_append
              (bodyOk_pair (by decide) (by decide) (by decide) (by decide)
                (by decide) (by decide) a0 x0 tg attrs x9) hbR
      · rw [if_neg hrel] at h
        simp at h
    · rw [if_neg hs] at h
      cases h
      exact ⟨[], by simp, bodyOk_nil⟩

/-- Consumption lemma for `load_dependency`: exactly the element's start and
end events are consumed. -/
theorem LC_dependency (tag : String) (st : PSt) (d : Dependency) (st2 : PSt)
    (h : load_dependency tag st = .ok (d, st2)) :
    ∃ a x t2 a2 x2, st.evs =
      XEvent.startE tag a x :: XEvent.endE t2 a2 x2 :: st2.evs := by
  simp only [load_dependency] at h
  obtain ⟨⟨tg0, a0, stA⟩, h1, h⟩ := bind_ok h
  dsimp only at h
  obtain ⟨⟨attrs, x9, stB⟩, h2, h⟩ := bind_ok h
  dsimp only at h
  obtain ⟨did, h3, h⟩ := bind_ok h
  obtain ⟨dver, h4, h⟩ := bind_ok h
  try dsimp only at h2 h
  cases h
  obtain ⟨x0, hA, hcont, hwA⟩ := startTag_ok h1
  have htg : tg0 = tag := by simpa using hcont
  subst htg
  obtain ⟨tg, hB, hcontB, hwB⟩ := endTag_ok h2
  exact ⟨a0, x0, tg, attrs, x9, by rw [hA, hB]⟩

/-- Consumption lemma for the `Requires` loop. -/
theorem LC_requires : ∀ (fuel : Nat) (st : PSt) (res : List Dependency)
    (st2 : PSt), load_requires fuel st = .ok (res, st2) →
    ∃ seg, st.evs = seg ++ st2.evs ∧ bodyOk seg := by
  intro fuel
  induction fuel with
  | zero =>
    intro st res st2 h
    simp [load_requires, fuelErr] at h
  | succ n ih =>
    intro st res st2 h
    simp only [load_requires] at h
    by_cases hs : startsAny ["Requires"] st = true
    · rw [if_pos hs] at h
      obtain ⟨⟨d1, stA⟩, h1, h⟩ := bind_ok h
      dsimp only at h
      obtain ⟨⟨deps1, stB⟩, h2, h⟩ := bind_ok h
      try dsimp only at h
      cases h
      obtain ⟨a0, x0, tg, a2, x2, hA⟩ := LC_dependency "Requires" st d1 stA h1
      obtain ⟨segR, hR, hbR⟩ := ih stA deps1 st2 h2
      refine ⟨XEvent.startE "Requires" a0 x0 ::
        XEvent.endE tg a2 x2 :: segR, ?_, ?_⟩
      · rw [hA, hR]
        simp
      · exact bodyOk_append
          (bodyOk_pair (by decide) (by decide) (by decide) (by decide)
            (by decide) (by decide) a0 x0 tg a2 x2) hbR
    · rw [if_neg hs] at h
      cases h
      exact ⟨[], by simp, bodyOk_nil⟩

theorem entry_wrap {t : String}
    (ht : t = "LexicalEntry" ∨ t = "ExternalLexicalEntry")
    {inner : List XEvent} (hin : bodyOk inner) (a : Attrs)
    (x : Option String) (t2 : String) (a2 : Attrs) (x2 : Option String) :
    loopOk (XEvent.startE t a x :: (inner ++ [XEvent.endE t2 a2 x2]))
      1 0 := by
  obtain ⟨b1, b2, b3, b4, b5⟩ := hin
  rcases ht with rfl | rfl <;>
    refine ⟨?_, ?_, ?_, ?_, ?_⟩ <;>
      simp [cS, nS, nE, cS_append, nS_append, nE_append, b2, b3] <;> omega

theorem synset_wrap {t : String}
    (ht : t = "Synset" ∨ t = "ExternalSynset")
    {inner : List XEvent} (hin : bodyOk inner) (a : Attrs)
    (x : Option String) (t2 : String) (a2 : Attrs) (x2 : Option String) :
    loopOk (XEvent.startE t a x :: (inner ++ [XEvent.endE t2 a2 x2]))
      0 1 := by
  obtain ⟨b1, b2, b3, b4, b5⟩ := hin
  rcases ht with rfl | rfl <;>
    refine ⟨?_, ?_, ?_, ?_, ?_⟩ <;>
      simp [cS, nS, nE, cS_append, nS_append, nE_append, b2, b3] <;> omega

/-- Consumption lemma for `load_senses`. -/
theorem LC_senses (V : Vocab) (v : Ver) (external : Bool) :
    ∀ (fuel : Nat) (st : PSt) (res : List Sense) (st2 : PSt),
    load_senses V v external fuel st = .ok (res, st2) →
    ∃ seg, st.evs = seg ++ st2.evs ∧ bodyOk seg := by
  intro fuel
  induction fuel with
  | zero =>
    intro st res st2 h
    simp [load_senses, fuelErr] at h
  | succ n ih =>
    intro st res st2 h
    simp only [load_senses] at h
    by_cases hs : startsAny ["Sense"] st = true
    · rw [if_pos hs] at h
      obtain ⟨⟨stag, attrs, stA⟩, h1, h⟩ := bind_ok h
      dsimp only at h
      obtain ⟨sid, h2, h⟩ := bind_ok h
      obtain ⟨ssyn, h3, h⟩ := bind_ok h
      obtain ⟨⟨rels1, stB⟩, h4, h⟩ := bind_ok h
      dsimp only at h
      obtain ⟨⟨exs1, stC⟩, h5, h⟩ := bind_ok h
      dsimp only at h
      obtain ⟨⟨cnts1, stD⟩, h6, h⟩ := bind_ok h
      dsimp only at h
      cases hgb : get_bool ((getA attrs "lexicalized").getD "true") stD with
      | mk lex1 stE =>
        rw [hgb] at h
        dsimp only at h
        cases hgl : get_literal (getA attrs "adjposition") V.ADJPOSITIONS
            stE with
        | mk adj1 stF =>
          rw [hgl] at h
          dsimp only at h
          cases hgm : get_metadata attrs v stF with
          | mk meta1 stG =>
            rw [hgm] at h
            dsimp only at h
            obtain ⟨⟨a9, x9, stH⟩, h7, h⟩ := bind_ok h
            dsimp only at h
            obtain ⟨⟨senses1, stI⟩, h8, h⟩ := bind_ok h
            dsimp only at h4 h5 h6 h7 h8 h
            cases h
            obtain ⟨x0, hA, hcont, hwA⟩ := startTag_ok h1
            have hstag : stag = "Sense" := by simpa using hcont
            subst hstag
            obtain ⟨segRel, hRel, hbRel⟩ := LC_senseRels V v n stA rels1 stB h4
            obtain ⟨segEx, hEx, hbEx⟩ := LC_examples v n stB exs1 stC h5
            obtain ⟨segCnt, hCnt, hbCnt⟩ := LC_counts v n stC cnts1 stD h6
            have hgbev := get_bool_evs ((getA attrs "lexicalized").getD "true") stD
            rw [hgb] at hgbev
            dsimp only at hgbev
            have hglev := get_literal_evs (getA attrs "adjposition")
              V.ADJPOSITIONS stE
            rw [hgl] at hglev
            dsimp only at hglev
            have hgmev := get_metadata_evs attrs v stF
            rw [hgm] at hgmev
            dsimp only at hgmev
            obtain ⟨tg, hEnd, hcontE, hwE⟩ := endTag_ok h7
            obtain ⟨segS, hS, hbS⟩ := ih stH senses1 st2 h8
            refine ⟨(XEvent.startE "Sense" attrs x0 ::
              ((segRel ++ segEx ++ segCnt) ++ [XEvent.endE tg a9 x9])) ++
                segS, ?_, ?_⟩
            · rw [hA, hRel, hEx, hCnt, ← hgbev, ← hglev, ← hgmev, hEnd, hS]
              simp
            · exact bodyOk_append
                (bodyOk_wrap (by decide) (by decide) (by decide) (by decide)
                  (by decide) (by decide)
                  (bodyOk_append (bodyOk_append hbRel hbEx) hbCnt)
                  attrs x0 tg a9 x9) hbS
    · rw [if_neg hs] at h
      by_cases hs2 : (external && startsAny ["ExternalSense"] st) = true
      · rw [if_pos hs2] at h
        obtain ⟨⟨stag, attrs, stA⟩, h1, h⟩ := bind_ok h
        dsimp only at h
        obtain ⟨sid, h2, h⟩ := bind_ok h
        obtain ⟨⟨rels1, stB⟩, h4, h⟩ := bind_ok h
        dsimp only at h
        obtain ⟨⟨exs1, stC⟩, h5, h⟩ := bind_ok h
        dsimp only at h
        obtain ⟨⟨cnts1, stD⟩, h6, h⟩ := bind_ok h
        dsimp only at h
        obtain ⟨⟨a9, x9, stH⟩, h7, h⟩ := bind_ok h
        dsimp only at h
        obtain ⟨⟨senses1, stI⟩, h8, h⟩ := bind_ok h
        dsimp only at h4 h5 h6 h7 h8 h
        cases h
        obtain ⟨x0, hA, hcont, hwA⟩ := startTag_ok h1
        have hstag : stag = "ExternalSense" := by simpa using hcont
        subst hstag
        obtain ⟨segRel, hRel, hbRel⟩ := LC_senseRels V v n stA rels1 stB h4
        obtain ⟨segEx, hEx, hbEx⟩ := LC_examples v n stB exs1 stC h5
        obtain ⟨segCnt, hCnt, hbCnt⟩ := LC_counts v n stC cnts1 stD h6
        obtain ⟨tg, hEnd, hcontE, hwE⟩ := endTag_ok h7
        obtain ⟨segS, hS, hbS⟩ := ih stH senses1 st2 h8
        refine ⟨(XEvent.startE "ExternalSense" attrs x0 ::
          ((segRel ++ segEx ++ segCnt) ++ [XEvent.endE tg a9 x9])) ++
            segS, ?_, ?_⟩
        · rw [hA, hRel, hEx, hCnt, hEnd, hS]
          simp
        · exact bodyOk_append
            (bodyOk_wrap (by decide) (by decide) (by decide) (by decide)
              (by decide) (by decide)
              (bodyOk_append (bodyOk_append hbRel hbEx) hbCnt)
              attrs x0 tg a9 x9) hbS
      · rw [if_neg hs2] at h
        cases h
        exact ⟨[], by simp, bodyOk_nil⟩

/-- Consumption lemma for `load_lexical_entries`: the number of
`LexicalEntry`/`ExternalLexicalEntry` start events in the consumed segment
equals the number of loaded entries, and no `Synset` start events occur. -/
theorem LC_entries (V : Vocab) (v : Ver) (extension : Bool) :
    ∀ (fuel : Nat) (st : PSt)
      (res : List LexicalEntry × List SyntacticBehaviour) (st2 : PSt),
    load_lexical_entries V v extension fuel st = .ok (res, st2) →
    ∃ seg, st.evs = seg ++ st2.evs ∧ loopOk seg res.1.length 0 := by
  intro fuel
  induction fuel with
  | zero =>
    intro st res st2 h
    simp [load_lexical_entries, fuelErr] at h
  | succ n ih =>
    intro st res st2 h
    simp only [load_lexical_entries] at h
    by_cases hs : startsAny ["LexicalEntry"] st = true
    · rw [if_pos hs] at h
      obtain ⟨⟨etag, attrs, stA⟩, h1, h⟩ := bind_ok h
      dsimp only at h
      obtain ⟨eid, h2, h⟩ := bind_ok h
      obtain ⟨⟨lem1, stB⟩, h3, h⟩ := bind_ok h
      dsimp only at h
      obtain ⟨⟨forms1, stC⟩, h4, h⟩ := bind_ok h
      dsimp only at h
      obtain ⟨⟨senses1, stD⟩, h5, h⟩ := bind_ok h
      dsimp only at h
      cases hgm : get_metadata attrs v stD with
      | mk meta1 stE =>
        rw [hgm] at h
        dsimp only at h
        obtain ⟨⟨sbs1, stF⟩, h6, h⟩ := bind_ok h
        dsimp only at h
        obtain ⟨⟨a9, x9, stG⟩, h7, h⟩ := bind_ok h
        dsimp only at h
        obtain ⟨⟨⟨entries1, sbsR⟩, stH⟩, h8, h⟩ := bind_ok h
        dsimp only at h3 h4 h5 h6 h7 h8 h
        cases h
        obtain ⟨x0, hA, hcont, hwA⟩ := startTag_ok h1
        have hetag : etag = "LexicalEntry" := by simpa using hcont
        subst hetag
        obtain ⟨segLem, hLem, hbLem⟩ := LC_lemma V n stA lem1 stB h3
        obtain ⟨segForm, hForm, hbForm⟩ := LC_forms n stB forms1 stC h4
        obtain ⟨segSen, hSen, hbSen⟩ := LC_senses V v false n stC senses1 stD h5
        have hgmev := get_metadata_evs attrs v stD
        rw [hgm] at hgmev
        dsimp only at hgmev
        obtain ⟨segSb, hSb, hbSb⟩ := LC_sbs v n stE sbs1 stF h6
        obtain ⟨tg, hEnd, hcontE, hwE⟩ := endTag_ok h7
        obtain ⟨segR, hR, hloopR⟩ := ih stG ⟨entries1, sbsR⟩ st2 h8
        refine ⟨(XEvent.startE "LexicalEntry" attrs x0 ::
          ((segLem ++ segForm ++ segSen ++ segSb) ++
            [XEvent.endE tg a9 x9])) ++ segR, ?_, ?_⟩
        · rw [hA, hLem, hForm, hSen, ← hgmev, hSb, hEnd, hR]
          simp
        · have hcomb := loopOk_append
            (entry_wrap (Or.inl rfl)
              (bodyOk_append (bodyOk_append (bodyOk_append hbLem hbForm)
                hbSen) hbSb) attrs x0 tg a9 x9) hloopR
          obtain ⟨c1, c2, c3, c4, c5⟩ := hcomb
          refine ⟨c1, c2, c3, ?_, ?_⟩ <;> (try dsimp only) <;>
            (try dsimp only at c4 c5) <;>
            (try simp only [List.length_cons]) <;> omega
    · rw [if_neg hs] at h
      by_cases hs2 :
          (extension && startsAny ["ExternalLexicalEntry"] st) = true
      · rw [if_pos hs2] at h
        obtain ⟨⟨etag, attrs, stA⟩, h1, h⟩ := bind_ok h
        dsimp only at h
        obtain ⟨eid, h2, h⟩ := bind_ok h
        obtain ⟨⟨forms1, stC⟩, h4, h⟩ := bind_ok h
        dsimp only at h
        obtain ⟨⟨senses1, stD⟩, h5, h⟩ := bind_ok h
        dsimp only at h
        obtain ⟨⟨sbs1, stF⟩, h6, h⟩ := bind_ok h
        dsimp only at h
        obtain ⟨⟨a9, x9, stG⟩, h7, h⟩ := bind_ok h
        dsimp only at h
        obtain ⟨⟨⟨entries1, sbsR⟩, stH⟩, h8, h⟩ := bind_ok h
        dsimp only at h4 h5 h6 h7 h8 h
        cases h
        obtain ⟨x0, hA, hcont, hwA⟩ := startTag_ok h1
        have hetag : etag = "ExternalLexicalEntry" := by simpa using hcont
        subst hetag
        obtain ⟨segForm, hForm, hbForm⟩ := LC_forms n stA forms1 stC h4
        obtain ⟨segSen, hSen, hbSen⟩ := LC_senses V v true n stC senses1 stD h5
        obtain ⟨segSb, hSb, hbSb⟩ := LC_sbs v n stD sbs1 stF h6
        obtain ⟨tg, hEnd, hcontE, hwE⟩ := endTag_ok h7
        obtain ⟨segR, hR, hloopR⟩ := ih stG ⟨entries1, sbsR⟩ st2 h8
        refine ⟨(XEvent.startE "ExternalLexicalEntry" attrs x0 ::
          ((segForm ++ segSen ++ segSb) ++ [XEvent.endE tg a9 x9])) ++
            segR, ?_, ?_⟩
        · rw [hA, hForm, hSen, hSb, hEnd, hR]
          simp
        · have hcomb := loopOk_append
            (entry_wrap (Or.inr rfl)
              (bodyOk_append (bodyOk_append hbForm hbSen) hbSb)
              attrs x0 tg a9 x9) hloopR
          obtain ⟨c1, c2, c3, c4, c5⟩ := hcomb
          refine ⟨c1, c2, c3, ?_, ?_⟩ <;> (try dsimp only) <;>
            (try dsimp only at c4 c5) <;>
            (try simp only [List.length_cons]) <;> omega
      · rw [if_neg hs2] at h
        cases h
        exact ⟨[], by simp, bodyOk_nil⟩

/-- Consumption lemma for `load_synsets`: the number of
`Synset`/`ExternalSynset` start events in the consumed segment equals the
number of loaded synsets, and no `LexicalEntry` start events occur. -/
theorem LC_synsets (V : Vocab) (v : Ver) (extension : Bool) :
    ∀ (fuel : Nat) (st : PSt) (res : List Synset) (st2 : PSt),
    load_synsets V v extension fuel st = .ok (res, st2) →
    ∃ seg, st.evs = seg ++ st2.evs ∧ loopOk seg 0 res.length := by
  intro fuel
  induction fuel with
  | zero =>
    intro st res st2 h
    simp [load_synsets, fuelErr] at h
  | succ n ih =>
    intro st res st2 h
    simp only [load_synsets] at h
    by_cases hs : startsAny ["Synset"] st = true
    · rw [if_pos hs] at h
      obtain ⟨⟨stag, attrs, stA⟩, h1, h⟩ := bind_ok h
      dsimp only at h
      obtain ⟨sid, h2, h⟩ := bind_ok h
      obtain ⟨ili1, h3, h⟩ := bind_ok h
      cases hgl : get_literal (getA attrs "partOfSpeech")
          V.PARTS_OF_SPEECH stA with
      | mk pos1 stB =>
        rw [hgl] at h
        dsimp only at h
        obtain ⟨⟨defs1, stC⟩, h4, h⟩ := bind_ok h
        dsimp only at h
        obtain ⟨⟨ili2, stD⟩, h5, h⟩ := bind_ok h
        dsimp only at h
        obtain ⟨⟨rels1, stE⟩, h6, h⟩ := bind_ok h
        dsimp only at h
        obtain ⟨⟨exs1, stF⟩, h7, h⟩ := bind_ok h
        dsimp only at h
        cases hgb : get_bool ((getA attrs "lexicalized").getD "true")
            stF with
        | mk lex1 stG =>
          rw [hgb] at h
          dsimp only at h
          cases hgm : get_metadata attrs v stG with
          | mk meta1 stH =>
            rw [hgm] at h
            dsimp only at h
            obtain ⟨⟨a9, x9, stI⟩, h8, h⟩ := bind_ok h
            dsimp only at h
            obtain ⟨⟨syns1, stJ⟩, h9, h⟩ := bind_ok h
            dsimp only at h4 h5 h6 h7 h8 h9 h
            cases h
            obtain ⟨x0, hA, hcont, hwA⟩ := startTag_ok h1
            have hstag : stag = "Synset" := by simpa using hcont
            subst hstag
            have hglev := get_literal_evs (getA attrs "partOfSpeech")
              V.PARTS_OF_SPEECH stA
            rw [hgl] at hglev
            dsimp only at hglev
            obtain ⟨segDef, hDef, hbDef⟩ := LC_definitions v n stB defs1 stC h4
            obtain ⟨segIli, hIli, hbIli⟩ := LC_iliDef v stC ili2 stD h5
            obtain ⟨segRel, hRel, hbRel⟩ := LC_synsetRels V v n stD rels1 stE h6
            obtain ⟨segEx, hEx, hbEx⟩ := LC_examples v n stE exs1 stF h7
            have hgbev := get_bool_evs ((getA attrs "lexicalized").getD "true") stF
            rw [hgb] at hgbev
            dsimp only at hgbev
            have hgmev := get_metadata_evs attrs v stG
            rw [hgm] at hgmev
            dsimp only at hgmev
            obtain ⟨tg, hEnd, hcontE, hwE⟩ := endTag_ok h8
            obtain ⟨segS, hS, hloopS⟩ := ih stI syns1 st2 h9
            refine ⟨(XEvent.startE "Synset" attrs x0 ::
              ((segDef ++ segIli ++ segRel ++ segEx) ++
                [XEvent.endE tg a9 x9])) ++ segS, ?_, ?_⟩
            · rw [hA, ← hglev, hDef, hIli, hRel, hEx, ← hgbev, ← hgmev,
                hEnd, hS]
              simp
            · have hcomb := loopOk_append
                (synset_wrap (Or.inl rfl)
                  (bodyOk_append (bodyOk_append (bodyOk_append hbDef hbIli)
                    hbRel) hbEx) attrs x0 tg a9 x9) hloopS
              obtain ⟨c1, c2, c3, c4, c5⟩ := hcomb
              refine ⟨c1, c2, c3, ?_, ?_⟩ <;> (try dsimp only) <;>
                (try dsimp only at c4 c5) <;>
                (try simp only [List.length_cons]) <;> omega
    · rw [if_neg hs] at h
      by_cases hs2 : (extension && startsAny ["ExternalSynset"] st) = true
      · rw [if_pos hs2] at h
        obtain ⟨⟨stag, attrs, stA⟩, h1, h⟩ := bind_ok h
        dsimp only at h
        obtain ⟨sid, h2, h⟩ := bind_ok h
        obtain ⟨⟨defs1, stC⟩, h4, h⟩ := bind_ok h
        dsimp only at h
        obtain ⟨⟨rels1, stE⟩, h6, h⟩ := bind_ok h
        dsimp only at h
        obtain ⟨⟨exs1, stF⟩, h7, h⟩ := bind_ok h
        dsimp only at h
        obtain ⟨⟨a9, x9, stI⟩, h8, h⟩ := bind_ok h
        dsimp only at h
        obtain ⟨⟨syns1, stJ⟩, h9, h⟩ := bind_ok h
        dsimp only at h4 h6 h7 h8 h9 h
        cases h
        obtain ⟨x0, hA, hcont, hwA⟩ := startTag_ok h1
        have hstag : stag = "ExternalSynset" := by simpa using hcont
        subst hstag
        obtain ⟨segDef, hDef, hbDef⟩ := LC_definitions v n stA defs1 stC h4
        obtain ⟨segRel, hRel, hbRel⟩ := LC_synsetRels V v n stC rels1 stE h6
        obtain ⟨segEx, hEx, hbEx⟩ := LC_examples v n stE exs1 stF h7
        obtain ⟨tg, hEnd, hcontE, hwE⟩ := endTag_ok h8
        obtain ⟨segS, hS, hloopS⟩ := ih stI syns1 st2 h9
        refine ⟨(XEvent.startE "ExternalSynset" attrs x0 ::
          ((segDef ++ segRel ++ segEx) ++ [XEvent.endE tg a9 x9])) ++
            segS, ?_, ?_⟩
        · rw [hA, hDef, hRel, hEx, hEnd, hS]
          simp
        · have hcomb := loopOk_append
            (synset_wrap (Or.inr rfl)
              (bodyOk_append (bodyOk_append hbDef hbRel) hbEx)
              attrs x0 tg a9 x9) hloopS
          obtain ⟨c1, c2, c3, c4, c5⟩ := hcomb
          refine ⟨c1, c2, c3, ?_, ?_⟩ <;> (try dsimp only) <;>
            (try dsimp only at c4 c5) <;>
            (try simp only [List.length_cons]) <;> omega
      · rw [if_neg hs2] at h
        cases h
        exact ⟨[], by simp, bodyOk_nil⟩

/-- Specification of the event segment consumed for one lexicon: it is
balanced, starts with a resource start tag, and the entry/synset start-tag
totals of its interior equal the loaded list lengths. -/
def SegSpec (seg : List XEvent) (lex : Lexicon) : Prop :=
  nS seg = nE seg ∧
  ∃ ltag a x body, seg = XEvent.startE ltag a x :: body ∧
    (ltag = "Lexicon" ∨ ltag = "LexiconExtension") ∧
    cS "Lexicon" body = 0 ∧ cS "LexiconExtension" body = 0 ∧
    cS "LexicalEntry" body + cS "ExternalLexicalEntry" body =
      lex.lexical_entries.length ∧
    cS "Synset" body + cS "ExternalSynset" body = lex.synsets.length

/-- Consumption lemma for `load_lexicon`. -/
theorem LC_lexicon (V : Vocab) (v : Ver) (fuel : Nat) (st : PSt)
    (lex : Lexicon) (st2 : PSt)
    (h : load_lexicon V v fuel st = .ok (lex, st2)) :
    ∃ seg, st.evs = seg ++ st2.evs ∧ SegSpec seg lex := by
  cases v with
  | v10 =>
    simp only [load_lexicon] at h
    obtain ⟨⟨ltag, attrs, stA⟩, h1, h⟩ := bind_ok h
    dsimp only at h
    obtain ⟨⟨extD, reqs, stB⟩, hp, h⟩ := bind_ok h
    dsimp only at h
    simp only [pure, Except.pure] at hp
    cases hp
    obtain ⟨⟨⟨entries1, frames1⟩, stC⟩, hent, h⟩ := bind_ok h
    dsimp only at h
    obtain ⟨⟨syns1, stD⟩, hsyn, h⟩ := bind_ok h
    dsimp only at h
    obtain ⟨lid, hb1, h⟩ := bind_ok h
    obtain ⟨llab, hb2, h⟩ := bind_ok h
    obtain ⟨llan, hb3, h⟩ := bind_ok h
    obtain ⟨lema, hb4, h⟩ := bind_ok h
    obtain ⟨llic, hb5, h⟩ := bind_ok h
    obtain ⟨lver, hb6, h⟩ := bind_ok h
    cases hgm : get_metadata attrs Ver.v10 stD with
    | mk meta1 stE =>
      rw [hgm] at h
      dsimp only at h
      obtain ⟨⟨a9, x9, stF⟩, hend, h⟩ := bind_ok h
      dsimp only at hent hsyn hend h
      cases h
      obtain ⟨x0, hA, hcont, hwA⟩ := startTag_ok h1
      have hlt : ltag = "Lexicon" := by simpa using hcont
      subst hlt
      obtain ⟨segEnt, hEnt, hloopE⟩ :=
        LC_entries V Ver.v10 ("Lexicon" == "LexiconExtension") fuel stA
          ⟨entries1, frames1⟩ stC hent
      dsimp only at hloopE
      obtain ⟨segSyn, hSyn, hloopS⟩ :=
        LC_synsets V Ver.v10 ("Lexicon" == "LexiconExtension") fuel stC
          syns1 stD hsyn
      have hgmev := get_metadata_evs attrs Ver.v10 stD
      rw [hgm] at hgmev
      dsimp only at hgmev
      obtain ⟨tg, hEnd, hcontE, hwE⟩ := endTag_ok hend
      obtain ⟨e1, e2, e3, e4, e5⟩ := hloopE
      obtain ⟨s1, s2, s3, s4, s5⟩ := hloopS
      refine ⟨XEvent.startE "Lexicon" attrs x0 ::
        ((segEnt ++ segSyn) ++ [XEvent.endE tg a9 x9]), ?_, ?_, "Lexicon",
        attrs, x0, (segEnt ++ segSyn) ++ [XEvent.endE tg a9 x9], rfl,
        Or.inl rfl, ?_, ?_, ?_, ?_⟩
      · rw [hA, hEnt, hSyn, ← hgmev, hEnd]
        simp
      all_goals
        simp only [nS, nE, cS, nS_append, nE_append, cS_append,
          List.length_cons] <;> omega
  | v11 =>
    simp only [load_lexicon] at h
    obtain ⟨⟨ltag, attrs, stA⟩, h1, h⟩ := bind_ok h
    dsimp only at h
    obtain ⟨x0, hA, hcont, hwA⟩ := startTag_ok h1
    have hcase : ltag = "Lexicon" ∨ ltag = "LexiconExtension" := by
      simpa using hcont
    by_cases hx : (ltag == "LexiconExtension") = true
    · rw [if_pos hx] at h
      obtain ⟨⟨d1, stB0⟩, hdep, h⟩ := bind_ok h
      dsimp only at h
      obtain ⟨⟨oD, stY⟩, hp1, h⟩ := bind_ok h
      dsimp only at h
      simp only [pure, Except.pure] at hp1
      cases hp1
      obtain ⟨⟨reqs2, stB2⟩, hreq, h⟩ := bind_ok h
      dsimp only at h
      obtain ⟨⟨oD2, reqs3, stZ⟩, hp2, h⟩ := bind_ok h
      dsimp only at h
      simp only [pure, Except.pure] at hp2
      cases hp2
      obtain ⟨ea, ex, et2, ea2, ex2, hExt⟩ :=
        LC_dependency "Extends" stA d1 stB0 hdep
      obtain ⟨segReq, hReq, hbReq⟩ := LC_requires fuel stB0 reqs2 stB2 hreq
      obtain ⟨⟨⟨entries1, frames1⟩, stC⟩, hent, h⟩ := bind_ok h
      dsimp only at h
      obtain ⟨⟨syns1, stD⟩, hsyn, h⟩ := bind_ok h
      dsimp only at h
      obtain ⟨lid, hb1, h⟩ := bind_ok h
      obtain ⟨llab, hb2, h⟩ := bind_ok h
      obtain ⟨llan, hb3, h⟩ := bind_ok h
      obtain ⟨lema, hb4, h⟩ := bind_ok h
      obtain ⟨llic, hb5, h⟩ := bind_ok h
      obtain ⟨lver, hb6, h⟩ := bind_ok h
      cases hgm : get_metadata attrs Ver.v11 stD with
      | mk meta1 stE =>
        rw [hgm] at h
        dsimp only at h
        obtain ⟨⟨a9, x9, stF⟩, hend, h⟩ := bind_ok h
        dsimp only at hent hsyn hend h
        cases h
        obtain ⟨segEnt, hEnt, hloopE⟩ :=
          LC_entries V Ver.v11 (ltag == "LexiconExtension") fuel stB2
            ⟨entries1, frames1⟩ stC hent
        dsimp only at hloopE
        obtain ⟨segSyn, hSyn, hloopS⟩ :=
          LC_synsets V Ver.v11 (ltag == "LexiconExtension") fuel stC
            syns1 stD hsyn
        have hgmev := get_metadata_evs attrs Ver.v11 stD
        rw [hgm] at hgmev
        dsimp only at hgmev
        obtain ⟨tg, hEnd, hcontE, hwE⟩ := endTag_ok hend
        obtain ⟨e1, e2, e3, e4, e5⟩ := hloopE
        obtain ⟨s1, s2, s3, s4, s5⟩ := hloopS
        obtain ⟨p1, p2, p3, p4, p5⟩ := hbReq
        refine ⟨XEvent.startE ltag attrs x0 ::
          (((XEvent.startE "Extends" ea ex :: XEvent.endE et2 ea2 ex2 ::
            segReq) ++ segEnt ++ segSyn) ++ [XEvent.endE tg a9 x9]), ?_, ?_,
          ltag, attrs, x0,
          ((XEvent.startE "Extends" ea ex :: XEvent.endE et2 ea2 ex2 ::
            segReq) ++ segEnt ++ segSyn) ++ [XEvent.endE tg a9 x9], rfl,
          hcase, ?_, ?_, ?_, ?_⟩
        · rw [hA, hExt, hReq, hEnt, hSyn, ← hgmev, hEnd]
          simp
        all_goals
          simp [nS, nE, cS, nS_append, nE_append, cS_append,
            List.length_cons, List.cons_append] <;> omega
    · rw [if_neg hx] at h
      obtain ⟨⟨oD, stY⟩, hp1, h⟩ := bind_ok h
      dsimp only at h
      simp only [pure, Except.pure] at hp1
      cases hp1
      obtain ⟨⟨reqs2, stB2⟩, hreq, h⟩ := bind_ok h
      dsimp only at h
      obtain ⟨⟨oD2, reqs3, stZ⟩, hp2, h⟩ := bind_ok h
      dsimp only at h
      simp only [pure, Except.pure] at hp2
      cases hp2
      obtain ⟨segReq, hReq, hbReq⟩ := LC_requires fuel stA reqs2 stB2 hreq
      obtain ⟨⟨⟨entries1, frames1⟩, stC⟩, hent, h⟩ := bind_ok h
      dsimp only at h
      obtain ⟨⟨syns1, stD⟩, hsyn, h⟩ := bind_ok h
      dsimp only at h
      obtain ⟨lid, hb1, h⟩ := bind_ok h
      obtain ⟨llab, hb2, h⟩ := bind_ok h
      obtain ⟨llan, hb3, h⟩ := bind_ok h
      obtain ⟨lema, hb4, h⟩ := bind_ok h
      obtain ⟨llic, hb5, h⟩ := bind_ok h
      obtain ⟨lver, hb6, h⟩ := bind_ok h
      cases hgm : get_metadata attrs Ver.v11 stD with
      | mk meta1 stE =>
        rw [hgm] at h
        dsimp only at h
        obtain ⟨⟨a9, x9, stF⟩, hend, h⟩ := bind_ok h
        dsimp only at hent hsyn hend h
        cases h
        obtain ⟨segEnt, hEnt, hloopE⟩ :=
          LC_entries V Ver.v11 (ltag == "LexiconExtension") fuel stB2
            ⟨entries1, frames1⟩ stC hent
        dsimp only at hloopE
        obtain ⟨segSyn, hSyn, hloopS⟩ :=
          LC_synsets V Ver.v11 (ltag == "LexiconExtension") fuel stC
            syns1 stD hsyn
        have hgmev := get_metadata_evs attrs Ver.v11 stD
        rw [hgm] at hgmev
        dsimp only at hgmev
        obtain ⟨tg, hEnd, hcontE, hwE⟩ := endTag_ok hend
        obtain ⟨e1, e2, e3, e4, e5⟩ := hloopE
        obtain ⟨s1, s2, s3, s4, s5⟩ := hloopS
        obtain ⟨p1, p2, p3, p4, p5⟩ := hbReq
        refine ⟨XEvent.startE ltag attrs x0 ::
          ((segReq ++ segEnt ++ segSyn) ++ [XEvent.endE tg a9 x9]), ?_, ?_,
          ltag, attrs, x0,
          (segReq ++ segEnt ++ segSyn) ++ [XEvent.endE tg a9 x9], rfl,
          hcase, ?_, ?_, ?_, ?_⟩
        · rw [hA, hReq, hEnt, hSyn, ← hgmev, hEnd]
          simp
        all_goals
          simp [nS, nE, cS, nS_append, nE_append, cS_append,
            List.length_cons, List.cons_append] <;> omega

/-- Pointwise `SegSpec` between consumed segments and loaded lexicons. -/
def SegsSpec : List (List XEvent) → List Lexicon → Prop
  | [], [] => True
  | s :: ss, l :: ls => SegSpec s l ∧ SegsSpec ss ls
  | _, _ => False

/-- Consumption lemma for the lexicon loop of `load`. -/
theorem LL_loop (V : Vocab) (v : Ver) :
    ∀ (fuel : Nat) (st : PSt) (lexs : List Lexicon) (st2 : PSt),
    load_lexicons V v fuel st = .ok (lexs, st2) →
    ∃ segs, st.evs = segJoin segs ++ st2.evs ∧ SegsSpec segs lexs := by
  intro fuel
  induction fuel with
  | zero =>
    intro st lexs st2 h
    simp [load_lexicons, fuelErr] at h
  | succ n ih =>
    intro st lexs st2 h
    simp only [load_lexicons] at h
    by_cases hs : startsAny ["Lexicon", "LexiconExtension"] st = true
    · rw [if_pos hs] at h
      obtain ⟨⟨lex1, stA⟩, h1, h⟩ := bind_ok h
      dsimp only at h
      obtain ⟨⟨lexs1, stB⟩, h2, h⟩ := bind_ok h
      dsimp only at h2 h
      cases h
      obtain ⟨seg, hSeg, hSpec⟩ := LC_lexicon V v n st lex1 stA h1
      obtain ⟨segs1, hSegs, hSpecs⟩ := ih stA lexs1 st2 h2
      exact ⟨seg :: segs1, by rw [hSeg, hSegs]; simp [segJoin],
        ⟨hSpec, hSpecs⟩⟩
    · rw [if_neg hs] at h
      cases h
      exact ⟨[], by simp [segJoin], trivial⟩

theorem segJoin_bal : ∀ (segs : List (List XEvent)) (lexs : List Lexicon),
    SegsSpec segs lexs → nS (segJoin segs) = nE (segJoin segs) := by
  intro segs
  induction segs with
  | nil => intro lexs _; rfl
  | cons s ss ih =>
    intro lexs h
    cases lexs with
    | nil => exact False.elim h
    | cons l ls =>
      obtain ⟨hseg, hrest⟩ := h
      have := ih ls hrest
      simp [segJoin, nS_append, nE_append, hseg.1, this]

/-- The scanner, run over the segments the loader consumed for the
lexicons, appends one record per lexicon whose entry/synset counts equal
the loaded list lengths. -/
theorem scan_segs : ∀ (segs : List (List XEvent)) (lexs : List Lexicon)
    (infos : List ScanInfo) (rest : List XEvent) (out : List ScanInfo),
    SegsSpec segs lexs →
    scanEvents infos (segJoin segs ++ rest) = .ok out →
    ∃ recs, scanEvents (infos ++ recs) rest = .ok out ∧
      recs.length = lexs.length ∧
      recs.map (fun i => lookupCount i.counts "LexicalEntry" +
          lookupCount i.counts "ExternalLexicalEntry") =
        lexs.map (fun l => l.lexical_entries.length) ∧
      recs.map (fun i => lookupCount i.counts "Synset" +
          lookupCount i.counts "ExternalSynset") =
        lexs.map (fun l => l.synsets.length) := by
  intro segs
  induction segs with
  | nil =>
    intro lexs infos rest out hS h
    cases lexs with
    | nil => exact ⟨[], by simpa [segJoin] using h, rfl, rfl, rfl⟩
    | cons l ls => exact False.elim hS
  | cons s ss ih =>
    intro lexs infos rest out hS h
    cases lexs with
    | nil => exact False.elim hS
    | cons l ls =>
      obtain ⟨hseg, hrest⟩ := hS
      obtain ⟨hbal, ltag, a, x, body, hsplit, hltag, hcL, hcX, hcE, hcS⟩ :=
        hseg
      subst hsplit
      rw [show segJoin ((XEvent.startE ltag a x :: body) :: ss) ++ rest =
        XEvent.startE ltag a x :: (body ++ (segJoin ss ++ rest)) by
          simp [segJoin]] at h
      simp only [scanEvents, scanStart_res infos ltag a hltag, bind,
        Except.bind] at h
      rw [scanEvents_append] at h
      rw [scanEvents_no_res body ⟨a, [], none⟩ infos hcL hcX] at h
      cases hproc : procRec ⟨a, [], none⟩ body with
      | error e =>
        rw [hproc] at h
        simp [Except.map, Except.bind] at h
      | ok r1 =>
        rw [hproc] at h
        simp only [Except.map, Except.bind] at h
        obtain ⟨recs1, hcont, hlen, hmapE, hmapS⟩ :=
          ih ls (infos ++ [r1]) rest out hrest h
        refine ⟨r1 :: recs1, ?_, by simp [hlen], ?_, ?_⟩
        · rw [show infos ++ r1 :: recs1 = (infos ++ [r1]) ++ recs1 by simp]
          exact hcont
        · simp only [List.map_cons, hmapE, List.cons.injEq]
          refine ⟨?_, trivial⟩
          have hc1 := procRec_counts body ⟨a, [], none⟩ r1 hproc
            "LexicalEntry" (by decide)
          have hc2 := procRec_counts body ⟨a, [], none⟩ r1 hproc
            "ExternalLexicalEntry" (by decide)
          simp only [lookupCount] at hc1 hc2
          omega
        · simp only [List.map_cons, hmapS, List.cons.injEq]
          refine ⟨?_, trivial⟩
          have hc1 := procRec_counts body ⟨a, [], none⟩ r1 hproc
            "Synset" (by decide)
          have hc2 := procRec_counts body ⟨a, [], none⟩ r1 hproc
            "ExternalSynset" (by decide)
          simp only [lookupCount] at hc1 hc2
          omega

/-- C8: for every document whose event stream `load` accepts and which the
scanner also accepts, the scanner reports one record per loaded lexicon,
and per resource the sum of its reported counts for `LexicalEntry` and
`ExternalLexicalEntry` equals the length of that resource's loaded
lexical-entry list, and the sum of the counts for `Synset` and
`ExternalSynset` equals the length of its loaded synset list. -/
theorem c8_scan_load_consistency (V : Vocab) (v : Ver) (doc : XTree)
    (lexs : List Lexicon) (warns : List String) (infos : List ScanInfo)
    (hload : load_resource V v (eventsOf doc) = .ok (lexs, warns))
    (hscan : scan_lexicons doc = .ok infos) :
    infos.length = lexs.length ∧
    infos.map (fun i => lookupCount i.counts "LexicalEntry" +
        lookupCount i.counts "ExternalLexicalEntry") =
      lexs.map (fun l => l.lexical_entries.length) ∧
    infos.map (fun i => lookupCount i.counts "Synset" +
        lookupCount i.counts "ExternalSynset") =
      lexs.map (fun l => l.synsets.length) := by
  obtain ⟨rt, ra, rx, rcs⟩ := doc
  simp only [load_resource] at hload
  obtain ⟨⟨rootTag, a0, st1⟩, h1, hload⟩ := bind_ok hload
  dsimp only at hload
  obtain ⟨⟨lexs1, st2⟩, h2, hload⟩ := bind_ok hload
  dsimp only at hload
  obtain ⟨⟨a9, x9, st3⟩, h3, hload⟩ := bind_ok hload
  dsimp only at h2 h3 hload
  cases hload
  obtain ⟨x0, hA, hcont, hwA⟩ := startTag_ok h1
  have hroot : rootTag = "LexicalResource" := by simpa using hcont
  subst hroot
  obtain ⟨segs, hSegs, hSpecs⟩ := LL_loop V v _ st1 lexs st2 h2
  obtain ⟨tg9, hB, hcontB, hwB⟩ := endTag_ok h3
  have hdoc : eventsOf (XTree.node rt ra rx rcs) =
      XEvent.startE rt ra rx ::
        (eventsOfList rcs ++ [XEvent.endE rt ra rx]) := by
    simp [eventsOf]
  dsimp only at hA
  rw [hdoc] at hA
  injection hA with hhead htail
  injection hhead with hrt hra hrx
  subst hrt
  have hbalF : nS (segJoin segs) = nE (segJoin segs) :=
    segJoin_bal segs lexs hSpecs
  have heq : eventsOfList rcs ++ [XEvent.endE "LexicalResource" ra rx] =
      segJoin segs ++ (XEvent.endE tg9 a9 x9 :: st3.evs) := by
    rw [htail, hSegs, hB]
  have heqA : segJoin segs = eventsOfList rcs := by
    rcases List.append_eq_append_iff.mp heq with ⟨m, hF, hE⟩ | ⟨m, hA2, hG⟩
    · cases m with
      | nil => simpa using hF
      | cons m0 mr => simp at hE
    · cases m with
      | nil => simpa using hA2.symm
      | cons m0 mr =>
        exfalso
        simp only [List.cons_append] at hG
        injection hG with hm0 hrest3
        subst hm0
        have hpref : nE (segJoin segs ++ [XEvent.endE tg9 a9 x9]) ≤
            nS (segJoin segs ++ [XEvent.endE tg9 a9 x9]) :=
          prefix_eventsOfList rcs _ mr (by rw [hA2]; simp)
        simp [nS_append, nE_append, nS, nE] at hpref
        omega
  rw [scan_lexicons, hdoc] at hscan
  simp only [scanEvents,
    scanStart_skip "LexicalResource" ra (by decide) (by decide) (by decide),
    bind, Except.bind] at hscan
  rw [← heqA] at hscan
  obtain ⟨recs, hcont2, hlen, hmapE, hmapS⟩ :=
    scan_segs segs lexs [] [XEvent.endE "LexicalResource" ra rx] infos
      hSpecs hscan
  have hri : recs = infos := by simpa [scanEvents] using hcont2
  subst hri
  exact ⟨hlen, hmapE, hmapS⟩

/-- A concrete document with one lexicon, one lexical entry and one synset,
used to witness the scan/load count consistency. -/
def c8doc : XTree :=
  .node "LexicalResource" [] none [
    .node "Lexicon"
      [("id","l"),("label","L"),("language","en"),("email","e"),
       ("license","c"),("version","1")] none [
      .node "LexicalEntry" [("id","w1")] none [
        .node "Lemma" [("writtenForm","f"),("partOfSpeech","n")] none []
      ],
      .node "Synset" [("id","s1"),("ili","i1")] none []
    ]
  ]

def c8load : Except LoadErr (List Lexicon × List String) :=
  load_resource Vx Ver.v10 (eventsOf c8doc)

def c8lexs : List Lexicon :=
  match c8load with
  | .ok p => p.1
  | .error _ => []

def c8warns : List String :=
  match c8load with
  | .ok p => p.2
  | .error _ => []

def c8infos : List ScanInfo :=
  match scan_lexicons c8doc with
  | .ok i => i
  | .error _ => []

/-- Witness for C8 at a concrete input: on `c8doc` (one entry, one synset)
the scanner record's counts match the loaded list lengths. -/
theorem c8_witness :
    c8infos.length = c8lexs.length ∧
    c8infos.map (fun i => lookupCount i.counts "LexicalEntry" +
        lookupCount i.counts "ExternalLexicalEntry") =
      c8lexs.map (fun l => l.lexical_entries.length) ∧
    c8infos.map (fun i => lookupCount i.counts "Synset" +
        lookupCount i.counts "ExternalSynset") =
      c8lexs.map (fun l => l.synsets.length) :=
  c8_scan_load_consistency Vx Ver.v10 c8doc c8lexs c8warns c8infos rfl rfl
